import Mathlib

/-!
# Verification of the codemap parsing-to-graph-to-analysis pipeline

A shallow embedding of the core of the `codemap` repository
(TypeScript): graph construction (`src/graph/builder.ts`,
`src/graph/types.ts`), PageRank (`src/graph/pagerank.ts`), clustering
(`src/graph/clustering.ts`), pattern detection
(`src/tools/detectPatterns.ts`) and the parser-side import/export
pipeline (`src/parsers/typescript.ts`, `src/parsers/base.ts`).

JavaScript numbers are embedded as rationals (`ℚ`); JS `Map`s are
embedded as insertion-ordered association lists with `Map.set`
update-in-place-or-append semantics; JS `Set`s used by the DFS are
embedded as lists with membership tests.  File paths are POSIX paths
(strings with `/` separators).
-/

/-! ## Insertion-ordered map (JS `Map`) -/

/-- JS `Map.prototype.set`: replace the value in place when the key is
present, otherwise append the binding at the end. -/
def mapSet {α : Type} (m : List (String × α)) (k : String) (v : α) :
    List (String × α) :=
  if m.any (fun p => p.1 = k) then
    m.map (fun p => if p.1 = k then (k, v) else p)
  else
    m ++ [(k, v)]

/-- JS `Map.prototype.has`. -/
def mapHas {α : Type} (m : List (String × α)) (k : String) : Bool :=
  m.any (fun p => p.1 = k)

/-- JS `Map.prototype.get`, as an `Option`. -/
def mapGet {α : Type} (m : List (String × α)) (k : String) : Option α :=
  (m.find? (fun p => p.1 = k)).map Prod.snd

/-- `map.get(k) || fallback` (JS pattern used with `|| []`, `|| 0`). -/
def mapGetD {α : Type} (m : List (String × α)) (k : String) (d : α) : α :=
  (mapGet m k).getD d

theorem mapHas_iff {α : Type} (m : List (String × α)) (k : String) :
    mapHas m k = true ↔ k ∈ m.map Prod.fst := by
  simp only [mapHas, List.any_eq_true, decide_eq_true_eq, List.mem_map]

theorem mapSet_keys {α : Type} (m : List (String × α)) (k : String) (v : α) :
    (mapSet m k v).map Prod.fst = m.map Prod.fst ∨
    (mapSet m k v).map Prod.fst = m.map Prod.fst ++ [k] := by
  unfold mapSet
  split
  · left
    rw [List.map_map]
    apply List.map_congr_left
    intro p _
    by_cases h : p.1 = k <;> simp [h]
  · right
    simp

theorem mapHas_mapSet {α : Type} (m : List (String × α)) (k k' : String)
    (v : α) (h : mapHas m k = true) : mapHas (mapSet m k' v) k = true := by
  rw [mapHas_iff] at h ⊢
  rcases mapSet_keys m k' v with heq | heq <;> rw [heq]
  · exact h
  · exact List.mem_append_left _ h

/-! ## Data model (`src/types/index.ts`) -/

/-- `ImportDeclaration`. -/
structure ImportDeclaration where
  source : String
  names : List String
  isDefault : Bool := false
  isNamespace : Bool := false
  line : Nat
  deriving Repr, DecidableEq

/-- `Definition` (only the fields the embedded code reads). -/
structure Definition where
  name : String
  type : String
  line : Nat
  exported : Bool := false
  deriving Repr, DecidableEq

/-- `ParsedFile`. -/
structure ParsedFile where
  filePath : String
  language : String
  imports : List ImportDeclaration
  exports : List String
  definitions : List Definition
  deriving Repr, DecidableEq

/-- `Node` of the dependency graph. -/
structure Node where
  id : String
  filePath : String
  language : String
  definitions : Nat
  deriving Repr, DecidableEq

/-- `Edge` of the dependency graph (`type` is always `'import'`). -/
structure Edge where
  source : String
  target : String
  type : String := "import"
  imports : Option (List String) := none
  deriving Repr, DecidableEq

/-- `Graph`. -/
structure Graph where
  nodes : List (String × Node)
  edges : List Edge
  adjacencyList : List (String × List String)
  reverseAdjacencyList : List (String × List String)
  deriving Repr, DecidableEq

/-! ## `src/graph/types.ts` -/

/-- `createGraph`. -/
def createGraph : Graph :=
  { nodes := [], edges := [], adjacencyList := [], reverseAdjacencyList := [] }

/-- `getImporters`: `graph.reverseAdjacencyList.get(filePath) || []`. -/
def getImporters (graph : Graph) (filePath : String) : List String :=
  mapGetD graph.reverseAdjacencyList filePath []

/-- `getImports`: `graph.adjacencyList.get(filePath) || []`. -/
def getImports (graph : Graph) (filePath : String) : List String :=
  mapGetD graph.adjacencyList filePath []

/-- `getInDegree`. -/
def getInDegree (graph : Graph) (filePath : String) : Nat :=
  (getImporters graph filePath).length

/-- `getOutDegree`. -/
def getOutDegree (graph : Graph) (filePath : String) : Nat :=
  (getImports graph filePath).length

/-! ## String primitives over character lists

Lean's built-in `String` functions do not reduce inside the kernel, so
the JS string operations the code uses (`startsWith`, `endsWith`,
`split`, `join`, `slice`, `replace`, `toLowerCase`, `includes`) are
embedded as character-list computations wrapped back into `String`. -/

/-- Structural worker for `splitOnL`; `fuel` bounds the number of
scanning steps (each step consumes at least one character, so
`fuel = s.length` never runs out). -/
def splitOnLF (sep : List Char) : Nat → List Char → List (List Char)
  | _, [] => [[]]
  | 0, s => [s]
  | fuel + 1, c :: rest =>
    if sep ≠ [] ∧ sep.isPrefixOf (c :: rest) then
      [] :: splitOnLF sep fuel ((c :: rest).drop sep.length)
    else
      match splitOnLF sep fuel rest with
      | [] => [[c]]
      | seg :: t => (c :: seg) :: t

/-- JS `String.prototype.split(sep)` on character lists (`sep ≠ []`);
the separator occurrences are scanned left to right. -/
def splitOnL (sep s : List Char) : List (List Char) :=
  splitOnLF sep s.length s

/-- JS `Array.prototype.join(sep)` on character lists. -/
def joinSep (sep : List Char) : List (List Char) → List Char
  | [] => []
  | [x] => x
  | x :: xs => x ++ sep ++ joinSep sep xs

/-- JS `String.prototype.includes(sub)` on character lists. -/
def containsSub (hay sub : List Char) : Bool :=
  match hay with
  | [] => sub.isEmpty
  | _ :: rest => sub.isPrefixOf hay || containsSub rest sub

/-- JS `startsWith`. -/
def strStartsWith (s p : String) : Bool := p.data.isPrefixOf s.data

/-- JS `endsWith`. -/
def strEndsWith (s p : String) : Bool := p.data.isSuffixOf s.data

/-- JS `split` with a string separator. -/
def strSplitOn (s sep : String) : List String :=
  (splitOnL sep.data s.data).map String.mk

/-- JS `Array.prototype.join`. -/
def strJoinSep (sep : String) (parts : List String) : String :=
  String.mk (joinSep sep.data (parts.map String.data))

/-- JS `slice(0, -n)`. -/
def strDropRight (s : String) (n : Nat) : String :=
  String.mk (s.data.take (s.data.length - n))

/-- JS `slice(n)`. -/
def strDrop (s : String) (n : Nat) : String := String.mk (s.data.drop n)

/-- JS `String.prototype.replace` with a character-class pattern: map a
character substitution over the string. -/
def strMapChars (f : Char → Char) (s : String) : String :=
  String.mk (s.data.map f)

/-- JS `toLowerCase` (ASCII). -/
def strToLower (s : String) : String := strMapChars Char.toLower s

/-- JS `includes`. -/
def strContains (s sub : String) : Bool := containsSub s.data sub.data

/-! ## POSIX path helpers (Node's `path` module, as used by the code)

The repository runs Node's `path` functions on absolute POSIX file
paths.  These embeddings implement the segment-based behaviour of
`dirname`, `resolve`, `join`, `extname` and `relative` on such paths. -/

/-- Normalize an absolute POSIX path: drop empty and `.` segments and
resolve `..` segments. -/
def normAbs (s : String) : String :=
  let segs := (strSplitOn s "/").filter (fun x => x ≠ "" ∧ x ≠ ".")
  let segs2 := segs.foldl
    (fun acc seg => if seg = ".." then acc.dropLast else acc ++ [seg]) []
  "/" ++ strJoinSep "/" segs2

/-- `path.resolve(base, rel)` with `base` absolute. -/
def pathResolve (base rel : String) : String :=
  if strStartsWith rel "/" then normAbs rel else normAbs (base ++ "/" ++ rel)

/-- `path.dirname` on a POSIX path. -/
def dirname (s : String) : String :=
  let segs := strSplitOn s "/"
  let init := segs.dropLast
  if init.isEmpty then "."
  else
    let j := strJoinSep "/" init
    if j = "" then "/" else j

/-- `path.join(a, b)` for a simple trailing component `b`. -/
def pathJoin (a b : String) : String := a ++ "/" ++ b

/-- `path.basename`: the last `/`-separated segment. -/
def pathBasename (s : String) : String :=
  ((strSplitOn s "/").getLast?).getD s

/-- `path.extname`: from the last `.` of the basename, `""` when the
basename has no dot or only a leading dot. -/
def extname (s : String) : String :=
  let b := (pathBasename s).data
  let r := b.reverse
  if r.contains '.' then
    let k := b.length - 1 - List.indexOf '.' r
    if k = 0 then "" else String.mk (b.drop k)
  else ""

/-- `path.relative(f, t)` for absolute POSIX paths. -/
def pathRelative (f t : String) : String :=
  let fs := (strSplitOn f "/").filter (· ≠ "")
  let ts := (strSplitOn t "/").filter (· ≠ "")
  let rec dropCommon : List String → List String → List String × List String
    | x :: xs, y :: ys => if x = y then dropCommon xs ys else (x :: xs, y :: ys)
    | xs, ys => (xs, ys)
  let (fr, tr) := dropCommon fs ts
  strJoinSep "/" (List.replicate fr.length ".." ++ tr)

/-! ## `GraphBuilder` (`src/graph/builder.ts`)

The builder's private state is `{graph, filePathMap, repoRoot}`. -/

/-- `GraphBuilder` state. -/
structure Builder where
  graph : Graph
  filePathMap : List (String × String)
  repoRoot : String
  deriving Repr

/-- `new GraphBuilder(repoRoot)`. -/
def newBuilder (repoRoot : String) : Builder :=
  { graph := createGraph, filePathMap := [], repoRoot := repoRoot }

/-- `GraphBuilder.indexFile`. -/
def indexFile (m : List (String × String)) (repoRoot filePath : String) :
    List (String × String) :=
  let m1 := mapSet m filePath filePath
  let relPath := pathRelative repoRoot filePath
  let m2 := mapSet m1 relPath filePath
  let ext := extname filePath
  if ext ≠ "" then
    let withoutExt := strDropRight filePath ext.data.length
    let m3 := mapSet m2 withoutExt filePath
    let relWithoutExt := strDropRight relPath ext.data.length
    let m4 := mapSet m3 relWithoutExt filePath
    let moduleKey := strMapChars (fun c => if c = '/' then '.' else c)
      (strMapChars (fun c => if c = '\\' then '/' else c) relWithoutExt)
    let m5 := mapSet m4 moduleKey filePath
    if strStartsWith moduleKey "src." then
      mapSet m5 (strDrop moduleKey 4) filePath
    else m5
  else m2

/-- `GraphBuilder.addNode`. -/
def addNode (b : Builder) (parsedFile : ParsedFile) : Builder :=
  let node : Node :=
    { id := parsedFile.filePath
      filePath := parsedFile.filePath
      language := parsedFile.language
      definitions := parsedFile.definitions.length }
  { b with
    graph := { b.graph with
      nodes := mapSet b.graph.nodes parsedFile.filePath node }
    filePathMap := indexFile b.filePathMap b.repoRoot parsedFile.filePath }

/-- `if (!map.has(k)) map.set(k, []); map.get(k)!.push(v)` — the
adjacency-list update inside `addEdge`. -/
def adjPush (m : List (String × List String)) (k v : String) :
    List (String × List String) :=
  mapSet m k (mapGetD m k [] ++ [v])

/-- `GraphBuilder.addEdge`. -/
def addEdge (g : Graph) (source target : String)
    (imports : Option (List String)) : Graph :=
  if ¬ (mapHas g.nodes source = true) ∨ ¬ (mapHas g.nodes target = true) then g
  else if g.edges.any (fun e => e.source = source ∧ e.target = target) then g
  else
    { g with
      edges := g.edges ++ [{ source := source, target := target,
                             type := "import", imports := imports }]
      adjacencyList := adjPush g.adjacencyList source target
      reverseAdjacencyList := adjPush g.reverseAdjacencyList target source }

/-- `GraphBuilder.resolveImport`.  `fsExists` stands for the
`existsSync` filesystem probe. -/
def resolveImport (m : List (String × String)) (fsExists : String → Bool)
    (importPath fromFile : String) : Option String :=
  if mapHas m importPath then mapGet m importPath
  else if strStartsWith importPath "." then
    let fromDir := dirname fromFile
    let pathToResolve :=
      if strEndsWith importPath ".js" then strDropRight importPath 3
      else importPath
    let resolved := pathResolve fromDir pathToResolve
    if mapHas m resolved then mapGet m resolved
    else
      let extensions := [".ts", ".tsx", ".js", ".jsx", ".mjs", ".cjs",
                         ".purs", ".hs", ".lhs"]
      match extensions.findSome?
          (fun ext => if mapHas m (resolved ++ ext) then
            mapGet m (resolved ++ ext) else none) with
      | some r => some r
      | none =>
        match extensions.findSome?
            (fun ext => if mapHas m (pathJoin resolved ("index" ++ ext)) then
              mapGet m (pathJoin resolved ("index" ++ ext)) else none) with
        | some r => some r
        | none =>
          match extensions.find? (fun ext => fsExists (resolved ++ ext)) with
          | some ext => some (resolved ++ ext)
          | none =>
            if fsExists (pathJoin resolved "index.ts") then
              some (pathJoin resolved "index.ts")
            else if mapHas m importPath then mapGet m importPath
            else none
  else if mapHas m importPath then mapGet m importPath
  else none

/-- `GraphBuilder.processImports`. -/
def processImports (b : Builder) (fsExists : String → Bool)
    (parsedFile : ParsedFile) : Builder :=
  parsedFile.imports.foldl
    (fun b imp =>
      match resolveImport b.filePathMap fsExists imp.source parsedFile.filePath with
      | some target =>
        { b with graph := addEdge b.graph parsedFile.filePath target (some imp.names) }
      | none => b)
    b

/-- `buildGraph`: two-phase construction. -/
def buildGraph (parsedFiles : List ParsedFile) (repoRoot : String)
    (fsExists : String → Bool) : Graph :=
  let b := parsedFiles.foldl addNode (newBuilder repoRoot)
  (parsedFiles.foldl (fun b pf => processImports b fsExists pf) b).graph

/-! ## Well-formedness (claim C1) -/

/-- Well-formedness: every stored edge's endpoints are keys of `nodes`,
and no two stored edges share a `(source, target)` pair. -/
def WFGraph (g : Graph) : Prop :=
  (∀ e ∈ g.edges, mapHas g.nodes e.source = true ∧ mapHas g.nodes e.target = true) ∧
  g.edges.Pairwise (fun e1 e2 => ¬ (e1.source = e2.source ∧ e1.target = e2.target))

/-- Builder operations: the public mutators of `GraphBuilder`. -/
inductive BuildOp where
  | node (pf : ParsedFile)
  | edge (source target : String) (imports : Option (List String))

/-- Apply one builder operation. -/
def applyOp (b : Builder) : BuildOp → Builder
  | .node pf => addNode b pf
  | .edge s t imps => { b with graph := addEdge b.graph s t imps }

/-- Apply a sequence of builder operations. -/
def applyOps (repoRoot : String) (ops : List BuildOp) : Builder :=
  ops.foldl applyOp (newBuilder repoRoot)

theorem wf_addNode {b : Builder} (pf : ParsedFile) (h : WFGraph b.graph) :
    WFGraph (addNode b pf).graph := by
  obtain ⟨h1, h2⟩ := h
  refine ⟨fun e he => ?_, ?_⟩
  · obtain ⟨hs, ht⟩ := h1 e he
    exact ⟨mapHas_mapSet _ _ _ _ hs, mapHas_mapSet _ _ _ _ ht⟩
  · exact h2

theorem wf_addEdge {g : Graph} (s t : String) (imps : Option (List String))
    (h : WFGraph g) : WFGraph (addEdge g s t imps) := by
  obtain ⟨h1, h2⟩ := h
  unfold addEdge
  split
  · exact ⟨h1, h2⟩
  · split
    · exact ⟨h1, h2⟩
    · rename_i hnodes hdup
      push_neg at hnodes
      constructor
      · intro e he
        simp only [List.mem_append, List.mem_singleton] at he
        rcases he with he | he
        · exact h1 e he
        · subst he
          exact ⟨hnodes.1, hnodes.2⟩
      · rw [List.pairwise_append]
        refine ⟨h2, List.pairwise_singleton _ _, ?_⟩
        intro e1 he1 e2 he2
        simp only [List.mem_singleton] at he2
        subst he2
        intro ⟨hse, hte⟩
        simp only [List.any_eq_true, decide_eq_true_eq] at hdup
        exact hdup ⟨e1, he1, hse, hte⟩

theorem wf_applyOps (repoRoot : String) (ops : List BuildOp) :
    WFGraph (applyOps repoRoot ops).graph := by
  suffices h : ∀ b : Builder, WFGraph b.graph →
      WFGraph (ops.foldl applyOp b).graph by
    apply h
    exact ⟨fun e he => absurd he (List.not_mem_nil e), List.Pairwise.nil⟩
  induction ops with
  | nil => intro b hb; exact hb
  | cons op ops ih =>
    intro b hb
    apply ih
    cases op with
    | node pf => exact wf_addNode pf hb
    | edge s t imps => exact wf_addEdge s t imps hb

/-- C1: every graph produced by a sequence of `GraphBuilder` operations
is well-formed; `addEdge` on a duplicate `(source, target)` pair or on a
missing endpoint leaves the graph (hence both adjacency maps) unchanged. -/
theorem C1_builder_wellformed (repoRoot : String) (ops : List BuildOp)
    (g : Graph) (s t : String) (imps : Option (List String)) :
    WFGraph (applyOps repoRoot ops).graph ∧
    (g.edges.any (fun e => e.source = s ∧ e.target = t) = true →
      addEdge g s t imps = g) ∧
    (¬ (mapHas g.nodes s = true) ∨ ¬ (mapHas g.nodes t = true) →
      addEdge g s t imps = g) := by
  refine ⟨wf_applyOps repoRoot ops, ?_, ?_⟩
  · intro hdup
    unfold addEdge
    split
    · rfl
    · simp only [hdup, if_true]
  · intro hmiss
    unfold addEdge
    rw [if_pos hmiss]

/-- Witness for C1 at a concrete builder run. -/
theorem C1_builder_wellformed_witness :
    WFGraph (applyOps "/r"
      [BuildOp.node { filePath := "/r/a.ts", language := "typescript",
                      imports := [], exports := [], definitions := [] },
       BuildOp.edge "/r/a.ts" "/r/a.ts" none]).graph ∧
    addEdge createGraph "x" "y" none = createGraph := by
  have h := C1_builder_wellformed "/r"
    [BuildOp.node { filePath := "/r/a.ts", language := "typescript",
                    imports := [], exports := [], definitions := [] },
     BuildOp.edge "/r/a.ts" "/r/a.ts" none]
    createGraph "x" "y" none
  exact ⟨h.1, h.2.2 (by decide)⟩

/-! ## PageRank (`src/graph/pagerank.ts`) -/

/-- `RankedFile`. -/
structure RankedFile where
  file : String
  score : ℚ
  rank : Nat
  inDegree : Nat
  outDegree : Nat
  deriving Repr, DecidableEq

/-- One inner iteration of `pageRank`: compute `newScores` for every
node from the previous `scores` map (synchronous update). -/
def pageRankRound (graph : Graph) (nodes : List String) (n d : ℚ)
    (scores : List (String × ℚ)) : List (String × ℚ) :=
  nodes.map (fun node =>
    (node,
      (getImporters graph node).foldl
        (fun score importer =>
          let importerScore := mapGetD scores importer 0
          let importerOutDegree := getOutDegree graph importer
          if importerOutDegree > 0 then
            score + d * (importerScore / (importerOutDegree : ℚ))
          else score)
        ((1 - d) / n)))

/-- `pageRank`. -/
def pageRank (graph : Graph) (iterations : Nat) (dampingFactor : ℚ) :
    List RankedFile :=
  let nodes := graph.nodes.map Prod.fst
  if nodes.length = 0 then []
  else
    let n : ℚ := (nodes.length : ℚ)
    let initial : List (String × ℚ) := nodes.map (fun v => (v, 1 / n))
    let scores :=
      (pageRankRound graph nodes n dampingFactor)^[iterations] initial
    let rankedFiles := nodes.map (fun file =>
      { file := file
        score := mapGetD scores file 0
        rank := 0
        inDegree := getInDegree graph file
        outDegree := getOutDegree graph file : RankedFile })
    let sorted := rankedFiles.mergeSort (fun a b => b.score ≤ a.score)
    sorted.mapIdx (fun index rf => { rf with rank := index + 1 })

/-- `getTopFiles`. -/
def getTopFiles (rankedFiles : List RankedFile) (n : Nat) : List RankedFile :=
  rankedFiles.take n

/-- `Math.max(...xs)` over a non-empty list (the empty case is guarded
in the code). -/
def maxListQ : List ℚ → ℚ
  | [] => 0
  | x :: xs => xs.foldl max x

/-- `Math.min(...xs)` over a non-empty list. -/
def minListQ : List ℚ → ℚ
  | [] => 0
  | x :: xs => xs.foldl min x

/-- `normalizeScores`. -/
def normalizeScores (rankedFiles : List RankedFile) : List RankedFile :=
  if rankedFiles.length = 0 then []
  else
    let maxScore := maxListQ (rankedFiles.map (·.score))
    let minScore := minListQ (rankedFiles.map (·.score))
    let range := maxScore - minScore
    if range = 0 then rankedFiles
    else rankedFiles.map (fun rf =>
      { rf with score := (rf.score - minScore) / range })

/-- The scoring recurrence as written in the spec: score 1/N at round
0; each round `(1-d)/N + d · Σ_{m imports n} score(m)/outDegree(m)`
over the reverse adjacency, where an importer with out-degree 0
contributes nothing. -/
def specScore (graph : Graph) (n d : ℚ) : Nat → String → ℚ
  | 0, _ => 1 / n
  | k + 1, v =>
    (1 - d) / n +
      d * ((getImporters graph v).map (fun m =>
        if getOutDegree graph m > 0 then
          specScore graph n d k m / (getOutDegree graph m : ℚ)
        else 0)).sum

/-! ### C2: the PageRank recurrence -/

theorem mapGetD_map_self (ns : List String) (f : String → ℚ) (v : String)
    (hv : v ∈ ns) : mapGetD (ns.map fun u => (u, f u)) v 0 = f v := by
  induction ns with
  | nil => cases hv
  | cons u us ih =>
    by_cases h : u = v
    · subst h
      simp [mapGetD, mapGet, List.find?]
    · have hv' : v ∈ us := by
        cases hv with
        | head => exact absurd rfl h
        | tail _ hm => exact hm
      simpa [mapGetD, mapGet, List.find?, h] using ih hv'

theorem foldl_add_if {α : Type} (l : List α) (t : α → ℚ) (c : α → Prop)
    [DecidablePred c] :
    ∀ b : ℚ, l.foldl (fun s x => if c x then s + t x else s) b =
      b + (l.map (fun x => if c x then t x else 0)).sum := by
  induction l with
  | nil => intro b; simp
  | cons x xs ih =>
    intro b
    simp only [List.foldl_cons, List.map_cons, List.sum_cons]
    rw [ih]
    by_cases h : c x
    · rw [if_pos h, if_pos h]; ring
    · rw [if_neg h, if_neg h]; ring

theorem getImporters_mem (graph : Graph) (v m : String)
    (hm : m ∈ getImporters graph v) :
    ∃ p ∈ graph.reverseAdjacencyList, p.1 = v ∧ m ∈ p.2 := by
  unfold getImporters mapGetD mapGet at hm
  cases hfind : graph.reverseAdjacencyList.find? (fun p => p.1 = v) with
  | none => rw [hfind] at hm; cases hm
  | some p =>
    rw [hfind] at hm
    rw [show (some p).map Prod.snd = some p.2 from rfl] at hm
    rw [Option.getD_some] at hm
    have h1 := List.mem_of_find?_eq_some hfind
    have h2 := List.find?_some hfind
    simp only [decide_eq_true_eq] at h2
    exact ⟨p, h1, h2, hm⟩

theorem pageRank_iterate_spec (graph : Graph) (d : ℚ)
    (hclosed : ∀ p ∈ graph.reverseAdjacencyList, ∀ m ∈ p.2,
      mapHas graph.nodes m = true) (k : Nat) :
    ∀ v, mapHas graph.nodes v = true →
      mapGetD ((pageRankRound graph (graph.nodes.map Prod.fst)
          ((graph.nodes.map Prod.fst).length : ℚ) d)^[k]
          ((graph.nodes.map Prod.fst).map (fun u =>
            (u, 1 / ((graph.nodes.map Prod.fst).length : ℚ))))) v 0 =
        specScore graph ((graph.nodes.map Prod.fst).length : ℚ) d k v := by
  induction k with
  | zero =>
    intro v hv
    rw [mapHas_iff] at hv
    simpa [specScore] using
      mapGetD_map_self (graph.nodes.map Prod.fst) _ v hv
  | succ k ih =>
    intro v hv
    rw [Function.iterate_succ_apply']
    rw [mapHas_iff] at hv
    rw [show pageRankRound graph (graph.nodes.map Prod.fst)
        ((graph.nodes.map Prod.fst).length : ℚ) d
        ((pageRankRound graph (graph.nodes.map Prod.fst)
          ((graph.nodes.map Prod.fst).length : ℚ) d)^[k]
          ((graph.nodes.map Prod.fst).map (fun u =>
            (u, 1 / ((graph.nodes.map Prod.fst).length : ℚ))))) =
      (graph.nodes.map Prod.fst).map (fun node =>
        (node, (getImporters graph node).foldl
          (fun score importer =>
            if getOutDegree graph importer > 0 then
              score + d * (mapGetD ((pageRankRound graph (graph.nodes.map Prod.fst)
                ((graph.nodes.map Prod.fst).length : ℚ) d)^[k]
                ((graph.nodes.map Prod.fst).map (fun u =>
                  (u, 1 / ((graph.nodes.map Prod.fst).length : ℚ))))) importer 0 /
                (getOutDegree graph importer : ℚ))
            else score)
          ((1 - d) / ((graph.nodes.map Prod.fst).length : ℚ)))) from rfl]
    rw [mapGetD_map_self _ _ v hv]
    rw [foldl_add_if (getImporters graph v)
      (fun importer => d * (mapGetD ((pageRankRound graph (graph.nodes.map Prod.fst)
        ((graph.nodes.map Prod.fst).length : ℚ) d)^[k]
        ((graph.nodes.map Prod.fst).map (fun u =>
          (u, 1 / ((graph.nodes.map Prod.fst).length : ℚ))))) importer 0 /
        (getOutDegree graph importer : ℚ)))
      (fun importer => getOutDegree graph importer > 0)]
    show _ = specScore graph _ d (k + 1) v
    rw [specScore]
    congr 1
    rw [← List.sum_map_mul_left]
    apply congrArg
    apply List.map_congr_left
    intro m hm
    obtain ⟨p, hp, hpv, hmp⟩ := getImporters_mem graph v m hm
    have hmnode : mapHas graph.nodes m = true := hclosed p hp m hmp
    by_cases hdeg : getOutDegree graph m > 0
    · rw [if_pos hdeg, if_pos hdeg, ih m hmnode]
    · rw [if_neg hdeg, if_neg hdeg]; ring

theorem pageRank_file_mem (graph : Graph) (iterations : Nat) (d : ℚ) :
    ∀ rf ∈ pageRank graph iterations d, ∃ u ∈ graph.nodes.map Prod.fst,
      rf.file = u ∧
      rf.score = mapGetD ((pageRankRound graph (graph.nodes.map Prod.fst)
        ((graph.nodes.map Prod.fst).length : ℚ) d)^[iterations]
        ((graph.nodes.map Prod.fst).map (fun u =>
          (u, 1 / ((graph.nodes.map Prod.fst).length : ℚ))))) u 0 ∧
      rf.inDegree = getInDegree graph u ∧ rf.outDegree = getOutDegree graph u := by
  intro rf hrf
  unfold pageRank at hrf
  by_cases hn : (graph.nodes.map Prod.fst).length = 0
  · rw [if_pos hn] at hrf; cases hrf
  · rw [if_neg hn] at hrf
    rw [List.mem_mapIdx] at hrf
    obtain ⟨i, hi, heq⟩ := hrf
    set sorted := (((graph.nodes.map Prod.fst).map (fun file =>
      { file := file
        score := mapGetD ((pageRankRound graph (graph.nodes.map Prod.fst)
          ((graph.nodes.map Prod.fst).length : ℚ) d)^[iterations]
          ((graph.nodes.map Prod.fst).map (fun u =>
            (u, 1 / ((graph.nodes.map Prod.fst).length : ℚ))))) file 0
        rank := 0
        inDegree := getInDegree graph file
        outDegree := getOutDegree graph file : RankedFile })).mergeSort
        (fun a b => b.score ≤ a.score)) with hsorted
    have hmem : sorted[i] ∈ sorted := List.getElem_mem hi
    have hperm := List.mergeSort_perm ((graph.nodes.map Prod.fst).map (fun file =>
      { file := file
        score := mapGetD ((pageRankRound graph (graph.nodes.map Prod.fst)
          ((graph.nodes.map Prod.fst).length : ℚ) d)^[iterations]
          ((graph.nodes.map Prod.fst).map (fun u =>
            (u, 1 / ((graph.nodes.map Prod.fst).length : ℚ))))) file 0
        rank := 0
        inDegree := getInDegree graph file
        outDegree := getOutDegree graph file : RankedFile }))
      (fun a b => b.score ≤ a.score)
    rw [← hsorted] at hperm
    have hmem2 := hperm.mem_iff.mp hmem
    rw [List.mem_map] at hmem2
    obtain ⟨u, hu, huu⟩ := hmem2
    refine ⟨u, hu, ?_⟩
    rw [← heq, ← huu]
    exact ⟨rfl, rfl, rfl, rfl⟩

/-- C2: for a non-empty graph every ranked file's score equals the
spec's recurrence iterated exactly `iterations` times from the uniform
start `1/N`, with zero-out-degree importers contributing nothing; for
the empty graph the result is the empty list. -/
theorem C2_pageRank_matches_spec (graph : Graph) (iterations : Nat) (d : ℚ)
    (hclosed : ∀ p ∈ graph.reverseAdjacencyList, ∀ m ∈ p.2,
      mapHas graph.nodes m = true) :
    (graph.nodes = [] → pageRank graph iterations d = []) ∧
    (∀ rf ∈ pageRank graph iterations d,
      rf.score = specScore graph ((graph.nodes.map Prod.fst).length : ℚ) d
        iterations rf.file ∧
      rf.inDegree = getInDegree graph rf.file ∧
      rf.outDegree = getOutDegree graph rf.file) := by
  constructor
  · intro hempty
    unfold pageRank
    rw [hempty]
    simp
  · intro rf hrf
    obtain ⟨u, hu, hfile, hscore, hin, hout⟩ :=
      pageRank_file_mem graph iterations d rf hrf
    have humap : mapHas graph.nodes u = true := (mapHas_iff _ _).mpr hu
    subst hfile
    refine ⟨?_, hin, hout⟩
    rw [hscore]
    exact pageRank_iterate_spec graph d hclosed iterations rf.file humap

/-- A concrete two-node, one-edge graph used by witnesses. -/
def exGraphAB : Graph :=
  { nodes :=
      [("a", { id := "a", filePath := "a", language := "typescript", definitions := 0 }),
       ("b", { id := "b", filePath := "b", language := "typescript", definitions := 0 })]
    edges := [{ source := "a", target := "b", type := "import", imports := none }]
    adjacencyList := [("a", ["b"])]
    reverseAdjacencyList := [("b", ["a"])] }

/-- Witness for C2 on a concrete two-node, one-edge graph. -/
theorem C2_pageRank_matches_spec_witness :
    (∀ p ∈ exGraphAB.reverseAdjacencyList, ∀ m ∈ p.2,
      mapHas exGraphAB.nodes m = true) ∧
    (∀ rf ∈ pageRank exGraphAB 2 (85 / 100),
      rf.score = specScore exGraphAB
        ((exGraphAB.nodes.map Prod.fst).length : ℚ) (85 / 100) 2 rf.file ∧
      rf.inDegree = getInDegree exGraphAB rf.file ∧
      rf.outDegree = getOutDegree exGraphAB rf.file) :=
  ⟨by decide, (C2_pageRank_matches_spec exGraphAB 2 (85 / 100) (by decide)).2⟩

/-! ### C10: `normalizeScores` -/

theorem foldl_max_ge_init (xs : List ℚ) : ∀ x : ℚ, x ≤ xs.foldl max x := by
  induction xs with
  | nil => intro x; simp
  | cons y ys ih =>
    intro x
    simp only [List.foldl_cons]
    exact le_trans (le_max_left x y) (ih (max x y))

theorem foldl_max_ge_mem (xs : List ℚ) :
    ∀ x y, y ∈ xs → y ≤ xs.foldl max x := by
  induction xs with
  | nil => intro x y h; cases h
  | cons z zs ih =>
    intro x y h
    simp only [List.foldl_cons]
    cases h with
    | head => exact le_trans (le_max_right x z) (foldl_max_ge_init zs (max x z))
    | tail _ hm => exact ih (max x z) y hm

theorem foldl_max_mem (xs : List ℚ) :
    ∀ x, xs.foldl max x = x ∨ xs.foldl max x ∈ xs := by
  induction xs with
  | nil => intro x; left; rfl
  | cons z zs ih =>
    intro x
    simp only [List.foldl_cons]
    rcases ih (max x z) with h | h
    · rw [h]
      rcases max_choice x z with h2 | h2
      · left; exact h2
      · right; rw [h2]; exact List.mem_cons_self z zs
    · right; exact List.mem_cons_of_mem z h

theorem foldl_min_le_init (xs : List ℚ) : ∀ x : ℚ, xs.foldl min x ≤ x := by
  induction xs with
  | nil => intro x; simp
  | cons y ys ih =>
    intro x
    simp only [List.foldl_cons]
    exact le_trans (ih (min x y)) (min_le_left x y)

theorem foldl_min_le_mem (xs : List ℚ) :
    ∀ x y, y ∈ xs → xs.foldl min x ≤ y := by
  induction xs with
  | nil => intro x y h; cases h
  | cons z zs ih =>
    intro x y h
    simp only [List.foldl_cons]
    cases h with
    | head => exact le_trans (foldl_min_le_init zs (min x z)) (min_le_right x z)
    | tail _ hm => exact ih (min x z) y hm

theorem foldl_min_mem (xs : List ℚ) :
    ∀ x, xs.foldl min x = x ∨ xs.foldl min x ∈ xs := by
  induction xs with
  | nil => intro x; left; rfl
  | cons z zs ih =>
    intro x
    simp only [List.foldl_cons]
    rcases ih (min x z) with h | h
    · rw [h]
      rcases min_choice x z with h2 | h2
      · left; exact h2
      · right; rw [h2]; exact List.mem_cons_self z zs
    · right; exact List.mem_cons_of_mem z h

theorem maxListQ_mem {l : List ℚ} (h : l ≠ []) : maxListQ l ∈ l := by
  cases l with
  | nil => exact absurd rfl h
  | cons x xs =>
    rcases foldl_max_mem xs x with h2 | h2
    · rw [maxListQ, h2]; exact List.mem_cons_self x xs
    · exact List.mem_cons_of_mem x h2

theorem le_maxListQ {l : List ℚ} {y : ℚ} (hy : y ∈ l) : y ≤ maxListQ l := by
  cases l with
  | nil => cases hy
  | cons x xs =>
    rcases List.mem_cons.mp hy with h | h
    · rw [h]; exact foldl_max_ge_init xs x
    · exact foldl_max_ge_mem xs x y h

theorem minListQ_mem {l : List ℚ} (h : l ≠ []) : minListQ l ∈ l := by
  cases l with
  | nil => exact absurd rfl h
  | cons x xs =>
    rcases foldl_min_mem xs x with h2 | h2
    · rw [minListQ, h2]; exact List.mem_cons_self x xs
    · exact List.mem_cons_of_mem x h2

theorem minListQ_le {l : List ℚ} {y : ℚ} (hy : y ∈ l) : minListQ l ≤ y := by
  cases l with
  | nil => cases hy
  | cons x xs =>
    rcases List.mem_cons.mp hy with h | h
    · rw [h]; exact foldl_min_le_init xs x
    · exact foldl_min_le_mem xs x y h

/-- C10: `normalizeScores` is the identity on the empty list and on a
zero score range; otherwise it applies `(score - min)/(max - min)`,
sending the maximum to 1 and the minimum to 0, keeping every result in
`[0,1]`, preserving strict score order, and leaving the `file`, `rank`,
`inDegree` and `outDegree` fields untouched. -/
theorem C10_normalizeScores (rankedFiles : List RankedFile) :
    (normalizeScores [] = []) ∧
    (maxListQ (rankedFiles.map (·.score)) -
        minListQ (rankedFiles.map (·.score)) = 0 →
      normalizeScores rankedFiles = rankedFiles) ∧
    (rankedFiles ≠ [] →
     maxListQ (rankedFiles.map (·.score)) -
        minListQ (rankedFiles.map (·.score)) ≠ 0 →
      normalizeScores rankedFiles =
        rankedFiles.map (fun rf =>
          { rf with score := (rf.score - minListQ (rankedFiles.map (·.score))) /
              (maxListQ (rankedFiles.map (·.score)) -
                minListQ (rankedFiles.map (·.score))) }) ∧
      (normalizeScores rankedFiles).map (·.file) = rankedFiles.map (·.file) ∧
      (normalizeScores rankedFiles).map (·.rank) = rankedFiles.map (·.rank) ∧
      (normalizeScores rankedFiles).map (·.inDegree) =
        rankedFiles.map (·.inDegree) ∧
      (normalizeScores rankedFiles).map (·.outDegree) =
        rankedFiles.map (·.outDegree) ∧
      (∀ rf ∈ normalizeScores rankedFiles, 0 ≤ rf.score ∧ rf.score ≤ 1) ∧
      (∃ rf ∈ normalizeScores rankedFiles, rf.score = 1) ∧
      (∃ rf ∈ normalizeScores rankedFiles, rf.score = 0) ∧
      (∀ a ∈ rankedFiles, ∀ b ∈ rankedFiles, (a.score < b.score ↔
        (a.score - minListQ (rankedFiles.map (·.score))) /
            (maxListQ (rankedFiles.map (·.score)) -
              minListQ (rankedFiles.map (·.score))) <
          (b.score - minListQ (rankedFiles.map (·.score))) /
            (maxListQ (rankedFiles.map (·.score)) -
              minListQ (rankedFiles.map (·.score)))))) := by
  refine ⟨rfl, ?_, ?_⟩
  · intro hrange
    unfold normalizeScores
    by_cases hlen : rankedFiles.length = 0
    · rw [if_pos hlen]
      exact (List.length_eq_zero.mp hlen).symm
    · rw [if_neg hlen, if_pos hrange]
  · intro hne hrange
    have hlen : ¬ rankedFiles.length = 0 := by
      intro h; exact hne (List.length_eq_zero.mp h)
    have hmapne : rankedFiles.map (·.score) ≠ [] := by
      intro h
      apply hne
      cases rankedFiles with
      | nil => rfl
      | cons a l => cases h
    have hminlemax : minListQ (rankedFiles.map (·.score)) ≤
        maxListQ (rankedFiles.map (·.score)) :=
      le_trans (minListQ_le (maxListQ_mem hmapne)) (le_refl _)
    have hrangepos : 0 < maxListQ (rankedFiles.map (·.score)) -
        minListQ (rankedFiles.map (·.score)) := by
      rcases lt_or_eq_of_le hminlemax with h | h
      · linarith
      · exact absurd (by linarith) hrange
    have hdef : normalizeScores rankedFiles =
        rankedFiles.map (fun rf =>
          { rf with score := (rf.score - minListQ (rankedFiles.map (·.score))) /
              (maxListQ (rankedFiles.map (·.score)) -
                minListQ (rankedFiles.map (·.score))) }) := by
      unfold normalizeScores
      rw [if_neg hlen, if_neg hrange]
    refine ⟨hdef, ?_, ?_, ?_, ?_, ?_, ?_, ?_, ?_⟩
    · rw [hdef, List.map_map]; rfl
    · rw [hdef, List.map_map]; rfl
    · rw [hdef, List.map_map]; rfl
    · rw [hdef, List.map_map]; rfl
    · intro rf hrf
      rw [hdef, List.mem_map] at hrf
      obtain ⟨a, ha, haeq⟩ := hrf
      have hales : a.score ≤ maxListQ (rankedFiles.map (·.score)) :=
        le_maxListQ (List.mem_map_of_mem (·.score) ha)
      have hage : minListQ (rankedFiles.map (·.score)) ≤ a.score :=
        minListQ_le (List.mem_map_of_mem (·.score) ha)
      rw [← haeq]
      constructor
      · exact div_nonneg (by linarith) (le_of_lt hrangepos)
      · rw [div_le_one hrangepos]; linarith
    · obtain ⟨a, ha, haeq⟩ := List.mem_map.mp (maxListQ_mem hmapne)
      refine ⟨{ a with score := (a.score - minListQ (rankedFiles.map (·.score))) /
          (maxListQ (rankedFiles.map (·.score)) -
            minListQ (rankedFiles.map (·.score))) }, ?_, ?_⟩
      · rw [hdef]; exact List.mem_map_of_mem _ ha
      · show (a.score - _) / _ = 1
        rw [haeq, div_self (ne_of_gt hrangepos)]
    · obtain ⟨a, ha, haeq⟩ := List.mem_map.mp (minListQ_mem hmapne)
      refine ⟨{ a with score := (a.score - minListQ (rankedFiles.map (·.score))) /
          (maxListQ (rankedFiles.map (·.score)) -
            minListQ (rankedFiles.map (·.score))) }, ?_, ?_⟩
      · rw [hdef]; exact List.mem_map_of_mem _ ha
      · show (a.score - _) / _ = 0
        rw [haeq, sub_self, zero_div]
    · intro a _ b _
      rw [div_lt_div_iff_of_pos_right hrangepos]
      constructor
      · intro h; linarith
      · intro h; linarith

/-- A concrete ranked list used by the C10 witness. -/
def exRankedFiles : List RankedFile :=
  [{ file := "a", score := 3, rank := 1, inDegree := 0, outDegree := 0 },
   { file := "b", score := 1, rank := 2, inDegree := 0, outDegree := 0 }]

/-- Witness for C10 at a concrete ranked list. -/
theorem C10_normalizeScores_witness :
    exRankedFiles ≠ [] ∧
    maxListQ (exRankedFiles.map (·.score)) -
      minListQ (exRankedFiles.map (·.score)) ≠ 0 ∧
    (∀ rf ∈ normalizeScores exRankedFiles, 0 ≤ rf.score ∧ rf.score ≤ 1) :=
  ⟨by simp [exRankedFiles],
   by norm_num [exRankedFiles, maxListQ, minListQ],
   (((C10_normalizeScores exRankedFiles).2.2
      (by simp [exRankedFiles])
      (by norm_num [exRankedFiles, maxListQ, minListQ])).2.2.2.2.2).1⟩

/-! ## Clustering (`src/graph/clustering.ts`) -/

/-- `Cluster`. -/
structure Cluster where
  clusterId : String
  name : String
  files : List String
  cohesion : ℚ
  description : String
  deriving Repr, DecidableEq

/-- `calculateCohesion`. -/
def calculateCohesion (graph : Graph) (files : List String) : ℚ :=
  if files.length ≤ 1 then 1
  else
    let internalEdges := (graph.edges.filter
      (fun e => e.source ∈ files ∧ e.target ∈ files)).length
    let maxPossibleEdges := files.length * (files.length - 1)
    if maxPossibleEdges = 0 then 0
    else (internalEdges : ℚ) / (maxPossibleEdges : ℚ)

/-- `mergeSmallClusters`. -/
def mergeSmallClusters (clusters : List Cluster) (minSize : Nat) :
    List Cluster :=
  let acc := clusters.foldl
    (fun (acc : List Cluster × List String) cluster =>
      if minSize ≤ cluster.files.length then (acc.1 ++ [cluster], acc.2)
      else (acc.1, acc.2 ++ cluster.files))
    ([], [])
  let largeClusters := acc.1
  let smallFiles := acc.2
  if smallFiles.length > 0 then
    largeClusters ++
      [{ clusterId := "other", name := "Other", files := smallFiles,
         description := toString smallFiles.length ++ " miscellaneous files",
         cohesion := 0 }]
  else largeClusters

/-! ### C5: cohesion -/

/-- C5 counterexample: on the empty cluster `calculateCohesion`
returns 1, not 0 as claimed (the `files.length <= 1` early return also
covers the empty list, and the `maxPossibleEdges === 0` branch is
unreachable). -/
theorem C5_cohesion_counterexample :
    calculateCohesion createGraph [] = 1 ∧ (1 : ℚ) ≠ 0 := by
  constructor
  · rfl
  · norm_num

/-- C5 (amended): cohesion is `internalEdges / (|files|·(|files|-1))`
for clusters of at least two files, and 1.0 for singleton **and empty**
clusters. -/
theorem C5_cohesion_amended (graph : Graph) (files : List String) :
    (files.length ≤ 1 → calculateCohesion graph files = 1) ∧
    (2 ≤ files.length → calculateCohesion graph files =
      ((graph.edges.filter
        (fun e => e.source ∈ files ∧ e.target ∈ files)).length : ℚ) /
        ((files.length * (files.length - 1) : Nat) : ℚ)) := by
  constructor
  · intro h
    unfold calculateCohesion
    rw [if_pos h]
  · intro h
    have h1 : ¬ files.length ≤ 1 := by omega
    have h2 : ¬ files.length * (files.length - 1) = 0 := by
      have : 1 ≤ files.length - 1 := by omega
      have : 2 * 1 ≤ files.length * (files.length - 1) :=
        Nat.mul_le_mul h this
      omega
    unfold calculateCohesion
    rw [if_neg h1, if_neg h2]

/-- Witness for C5 (amended) at concrete inputs. -/
theorem C5_cohesion_amended_witness :
    (([] : List String).length ≤ 1 ∧
      calculateCohesion createGraph [] = 1) ∧
    (2 ≤ (["a", "b"] : List String).length ∧
      calculateCohesion exGraphAB ["a", "b"] =
        ((exGraphAB.edges.filter
          (fun e => e.source ∈ (["a", "b"] : List String) ∧
            e.target ∈ (["a", "b"] : List String))).length : ℚ) /
          (((["a", "b"] : List String).length *
            ((["a", "b"] : List String).length - 1) : Nat) : ℚ)) :=
  ⟨⟨by decide, (C5_cohesion_amended createGraph []).1 (by decide)⟩,
   ⟨by decide, (C5_cohesion_amended exGraphAB ["a", "b"]).2 (by decide)⟩⟩

/-! ### C6: merging small clusters -/

theorem mergeSmallClusters_foldl (minSize : Nat) (clusters : List Cluster) :
    ∀ acc : List Cluster × List String,
      clusters.foldl
        (fun (acc : List Cluster × List String) cluster =>
          if minSize ≤ cluster.files.length then (acc.1 ++ [cluster], acc.2)
          else (acc.1, acc.2 ++ cluster.files))
        acc =
      (acc.1 ++ clusters.filter (fun c => minSize ≤ c.files.length),
       acc.2 ++ (clusters.filter
         (fun c => !decide (minSize ≤ c.files.length))).flatMap (·.files)) := by
  induction clusters with
  | nil => intro acc; simp
  | cons c cs ih =>
    intro acc
    simp only [List.foldl_cons]
    by_cases h : minSize ≤ c.files.length
    · rw [if_pos h, ih]
      simp [List.filter_cons, h]
    · rw [if_neg h, ih]
      simp [List.filter_cons, h]

theorem mergeSmallClusters_eq (clusters : List Cluster) (minSize : Nat) :
    mergeSmallClusters clusters minSize =
      (if ((clusters.filter
            (fun c => !decide (minSize ≤ c.files.length))).flatMap
            (·.files)).length > 0 then
        clusters.filter (fun c => minSize ≤ c.files.length) ++
          [{ clusterId := "other", name := "Other",
             files := (clusters.filter
               (fun c => !decide (minSize ≤ c.files.length))).flatMap (·.files),
             description := toString ((clusters.filter
               (fun c => !decide (minSize ≤ c.files.length))).flatMap
               (·.files)).length ++ " miscellaneous files",
             cohesion := 0 }]
      else clusters.filter (fun c => minSize ≤ c.files.length)) := by
  unfold mergeSmallClusters
  rw [mergeSmallClusters_foldl minSize clusters ([], [])]
  simp

theorem mergeSmallClusters_perm (clusters : List Cluster) (minSize : Nat) :
    ((mergeSmallClusters clusters minSize).flatMap (·.files)).Perm
      (clusters.flatMap (·.files)) := by
  rw [mergeSmallClusters_eq]
  have hperm : ((clusters.filter (fun c => minSize ≤ c.files.length) ++
      clusters.filter (fun c => !decide (minSize ≤ c.files.length))).flatMap
        (·.files)).Perm (clusters.flatMap (·.files)) :=
    (List.filter_append_perm _ clusters).flatMap_right (·.files)
  rw [List.flatMap_append] at hperm
  split
  · rw [List.flatMap_append]
    simpa using hperm
  · rename_i hz
    have hz0 : ((clusters.filter
        (fun c => !decide (minSize ≤ c.files.length))).flatMap
          (·.files)) = [] := by
      simp only [gt_iff_lt, not_lt, Nat.le_zero, List.length_eq_zero] at hz
      exact hz
    rw [hz0, List.append_nil] at hperm
    exact hperm

/-- C6: after `mergeSmallClusters` the multiset of files is preserved,
clusters of at least `minSize` files are kept as-is, every output
cluster is either an unchanged large input cluster or the single
`"Other"` cluster (cohesion 0, only added when small files exist), and
a partition of the node set stays a partition. -/
theorem C6_mergeSmallClusters_partition (clusters : List Cluster)
    (minSize : Nat) :
    ((mergeSmallClusters clusters minSize).flatMap (·.files)).Perm
      (clusters.flatMap (·.files)) ∧
    (∀ c ∈ clusters, minSize ≤ c.files.length →
      c ∈ mergeSmallClusters clusters minSize) ∧
    (∀ c ∈ mergeSmallClusters clusters minSize,
      (c ∈ clusters ∧ minSize ≤ c.files.length) ∨
      (c.clusterId = "other" ∧ c.name = "Other" ∧ c.cohesion = 0 ∧
        c.files ≠ [])) ∧
    ((clusters.flatMap (·.files)).Nodup →
      ((mergeSmallClusters clusters minSize).flatMap (·.files)).Nodup ∧
      ∀ x, (x ∈ (mergeSmallClusters clusters minSize).flatMap (·.files) ↔
        x ∈ clusters.flatMap (·.files))) := by
  have hperm := mergeSmallClusters_perm clusters minSize
  refine ⟨hperm, ?_, ?_, ?_⟩
  · intro c hc hbig
    rw [mergeSmallClusters_eq]
    have hmem : c ∈ clusters.filter (fun c => minSize ≤ c.files.length) :=
      List.mem_filter.mpr ⟨hc, by simpa using hbig⟩
    split
    · exact List.mem_append_left _ hmem
    · exact hmem
  · intro c hc
    rw [mergeSmallClusters_eq] at hc
    have hbigcase : c ∈ clusters.filter (fun c => minSize ≤ c.files.length) →
        (c ∈ clusters ∧ minSize ≤ c.files.length) := by
      intro h
      have := List.mem_filter.mp h
      exact ⟨this.1, by simpa using this.2⟩
    rcases hsplit : decide
        (((clusters.filter
          (fun c => !decide (minSize ≤ c.files.length))).flatMap
            (·.files)).length > 0) with _ | _
    · rw [if_neg (by simpa using of_decide_eq_false hsplit)] at hc
      exact Or.inl (hbigcase hc)
    · rw [if_pos (of_decide_eq_true hsplit)] at hc
      rcases List.mem_append.mp hc with h | h
      · exact Or.inl (hbigcase h)
      · rw [List.mem_singleton] at h
        subst h
        refine Or.inr ⟨rfl, rfl, rfl, ?_⟩
        intro hnil
        have hnil2 : ((clusters.filter
            (fun c => !decide (minSize ≤ c.files.length))).flatMap
              (·.files)) = [] := hnil
        rw [hnil2] at hsplit
        simp at hsplit
  · intro hnodup
    exact ⟨hperm.nodup_iff.mpr hnodup, fun x => hperm.mem_iff⟩

/-- Witness for C6 at a concrete cluster list. -/
theorem C6_mergeSmallClusters_partition_witness :
    ((([{ clusterId := "x", name := "X", files := ["a", "b", "c"],
          cohesion := 1, description := "" },
        { clusterId := "y", name := "Y", files := ["d"],
          cohesion := 1, description := "" }] : List Cluster).flatMap
            (·.files)).Nodup) ∧
    ((mergeSmallClusters
        [{ clusterId := "x", name := "X", files := ["a", "b", "c"],
           cohesion := 1, description := "" },
         { clusterId := "y", name := "Y", files := ["d"],
           cohesion := 1, description := "" }] 3).flatMap (·.files)).Nodup :=
  ⟨by decide,
   ((C6_mergeSmallClusters_partition
      [{ clusterId := "x", name := "X", files := ["a", "b", "c"],
         cohesion := 1, description := "" },
       { clusterId := "y", name := "Y", files := ["d"],
         cohesion := 1, description := "" }] 3).2.2.2 (by decide)).1⟩

/-! ### C3: `resolveImport` candidate order -/

theorem mapGet_eq_none_of_has_false {α : Type} {m : List (String × α)}
    {k : String} (h : mapHas m k = false) : mapGet m k = none := by
  unfold mapHas at h
  unfold mapGet
  cases hf : m.find? (fun p => p.1 = k) with
  | none => rfl
  | some p =>
    have h1 := List.find?_some hf
    have h2 := List.mem_of_find?_eq_some hf
    rw [List.any_eq_false] at h
    exact absurd h1 (by simpa using h p h2)

theorem mapHas_true_exists {α : Type} {m : List (String × α)} {k : String}
    (h : mapHas m k = true) : ∃ r, mapGet m k = some r := by
  unfold mapHas at h
  unfold mapGet
  cases hf : m.find? (fun p => p.1 = k) with
  | none =>
    rw [List.find?_eq_none] at hf
    rw [List.any_eq_true] at h
    obtain ⟨p, hp, hpk⟩ := h
    exact absurd hpk (by simpa using hf p hp)
  | some p => exact ⟨p.2, rfl⟩

/-- C3: on a `.`-prefixed specifier that is not a direct index key,
`resolveImport` strips a trailing `.js`, resolves against the importing
file's directory, and tries in order: the exact resolved path in the
index, the resolved path plus each extension, an index file with each
extension, then the filesystem; and the `./helper` scenario resolves to
the canonical absolute path of `src/helper.ts`. -/
theorem C3_resolveImport_order (m : List (String × String))
    (fsEx : String → Bool) (importPath fromFile : String)
    (hdot : strStartsWith importPath "." = true)
    (hnk : mapHas m importPath = false) :
    (resolveImport m fsEx importPath fromFile =
      (let pathToResolve :=
        if strEndsWith importPath ".js" then strDropRight importPath 3
        else importPath
      let resolved := pathResolve (dirname fromFile) pathToResolve
      let extensions := [".ts", ".tsx", ".js", ".jsx", ".mjs", ".cjs",
                         ".purs", ".hs", ".lhs"]
      match mapGet m resolved with
      | some r => some r
      | none =>
        match extensions.findSome? (fun ext => mapGet m (resolved ++ ext)) with
        | some r => some r
        | none =>
          match extensions.findSome?
              (fun ext => mapGet m (pathJoin resolved ("index" ++ ext))) with
          | some r => some r
          | none =>
            match extensions.find? (fun ext => fsEx (resolved ++ ext)) with
            | some ext => some (resolved ++ ext)
            | none =>
              if fsEx (pathJoin resolved "index.ts") then
                some (pathJoin resolved "index.ts")
              else none)) ∧
    resolveImport
      (indexFile (indexFile [] "/repo" "/repo/src/helper.ts") "/repo"
        "/repo/src/simple.ts")
      (fun _ => false) "./helper" "/repo/src/simple.ts" =
      some "/repo/src/helper.ts" := by
  constructor
  · have hgetif : ∀ x : String,
        (if mapHas m x = true then mapGet m x else none) = mapGet m x := by
      intro x
      by_cases hx : mapHas m x = true
      · rw [if_pos hx]
      · rw [if_neg hx]
        exact (mapGet_eq_none_of_has_false
          (Bool.not_eq_true _ ▸ Bool.of_not_eq_true hx)).symm
    simp only [resolveImport, hnk, hdot, Bool.false_eq_true, if_false,
      if_true, hgetif]
    by_cases hres : mapHas m
        (pathResolve (dirname fromFile)
          (if strEndsWith importPath ".js" then strDropRight importPath 3
           else importPath)) = true
    · obtain ⟨r, hr⟩ := mapHas_true_exists hres
      rw [if_pos hres, hr]
    · rw [if_neg hres,
        mapGet_eq_none_of_has_false (Bool.not_eq_true _ ▸ Bool.of_not_eq_true hres)]
  · decide

/-- Witness for C3 at concrete inputs. -/
theorem C3_resolveImport_order_witness :
    (strStartsWith "./x" "." = true ∧
      mapHas ([] : List (String × String)) "./x" = false) ∧
    resolveImport
      (indexFile (indexFile [] "/repo" "/repo/src/helper.ts") "/repo"
        "/repo/src/simple.ts")
      (fun _ => false) "./helper" "/repo/src/simple.ts" =
      some "/repo/src/helper.ts" :=
  ⟨⟨by decide, by decide⟩,
   (C3_resolveImport_order [] (fun _ => false) "./x" "/a/b.ts"
     (by decide) (by decide)).2⟩

/-! ## Parser-side pipeline (`src/parsers/base.ts`, `src/parsers/typescript.ts`) -/

/-- `[...new Set(xs)]`: deduplicate keeping first occurrences
(worker carrying the set of already-seen elements). -/
def setDedupAux (seen : List String) : List String → List String
  | [] => []
  | x :: xs =>
    if x ∈ seen then setDedupAux seen xs
    else x :: setDedupAux (x :: seen) xs

/-- `[...new Set(xs)]`. -/
def setDedup (xs : List String) : List String := setDedupAux [] xs

theorem setDedupAux_nodup (l : List String) :
    ∀ seen, (setDedupAux seen l).Nodup ∧
      ∀ x ∈ setDedupAux seen l, x ∉ seen := by
  induction l with
  | nil => intro seen; exact ⟨List.nodup_nil, fun x hx => absurd hx (List.not_mem_nil x)⟩
  | cons y ys ih =>
    intro seen
    unfold setDedupAux
    by_cases hy : y ∈ seen
    · rw [if_pos hy]
      exact ih seen
    · rw [if_neg hy]
      obtain ⟨hnd, hns⟩ := ih (y :: seen)
      refine ⟨List.nodup_cons.mpr ⟨?_, hnd⟩, ?_⟩
      · intro hmem
        exact hns y hmem (List.mem_cons_self y seen)
      · intro x hx
        rcases List.mem_cons.mp hx with h | h
        · rw [h]; exact hy
        · intro hxs
          exact hns x h (List.mem_cons_of_mem y hxs)

theorem setDedup_nodup (xs : List String) : (setDedup xs).Nodup :=
  (setDedupAux_nodup xs []).1

theorem setDedupAux_mem (l : List String) :
    ∀ seen x, (x ∈ setDedupAux seen l ↔ x ∈ l ∧ x ∉ seen) := by
  induction l with
  | nil => intro seen x; simp [setDedupAux]
  | cons y ys ih =>
    intro seen x
    unfold setDedupAux
    by_cases hy : y ∈ seen
    · rw [if_pos hy, ih seen x]
      constructor
      · rintro ⟨h1, h2⟩; exact ⟨List.mem_cons_of_mem y h1, h2⟩
      · rintro ⟨h1, h2⟩
        rcases List.mem_cons.mp h1 with h | h
        · subst h; exact absurd hy h2
        · exact ⟨h, h2⟩
    · rw [if_neg hy]
      constructor
      · intro hx
        rcases List.mem_cons.mp hx with h | h
        · subst h; exact ⟨List.mem_cons_self x ys, hy⟩
        · obtain ⟨h1, h2⟩ := (ih (y :: seen) x).mp h
          refine ⟨List.mem_cons_of_mem y h1, ?_⟩
          intro hs
          exact h2 (List.mem_cons_of_mem y hs)
      · rintro ⟨h1, h2⟩
        rcases List.mem_cons.mp h1 with h | h
        · subst h; exact List.mem_cons_self x _
        · by_cases hxy : x = y
          · subst hxy; exact List.mem_cons_self x _
          · refine List.mem_cons_of_mem y ((ih (y :: seen) x).mpr ⟨h, ?_⟩)
            intro hs
            rcases List.mem_cons.mp hs with h3 | h3
            · exact hxy h3
            · exact h2 h3

theorem setDedup_mem (xs : List String) (x : String) :
    x ∈ setDedup xs ↔ x ∈ xs := by
  rw [setDedup, setDedupAux_mem]
  simp

/-- `normalizeImportPath` (`src/parsers/base.ts`): returns the
specifier unchanged in every branch. -/
def normalizeImportPath (importPath _currentFilePath : String) : String :=
  if !(strStartsWith importPath ".") && !(strStartsWith importPath "/") then
    importPath
  else if strStartsWith importPath "/" then importPath
  else importPath

/-- `isExternalImport` (`src/parsers/base.ts`). -/
def isExternalImport (importPath : String) : Bool :=
  !(strStartsWith importPath ".") && !(strStartsWith importPath "/")

/-- The import assembly of `TypeScriptParserImpl.parse`: the imports
extracted from the AST (or the regex fallback) plus the CommonJS
extras, filtered to drop bare/external specifiers.  The Tree-sitter
extraction itself is native library code, abstracted here by the
`astImports`/`cjsImports` arguments. -/
def parseImports (astImports cjsImports : List ImportDeclaration) :
    List ImportDeclaration :=
  (astImports ++ cjsImports).filter (fun imp => !isExternalImport imp.source)

/-- C7: the TS/JS parser's returned import list never contains a
specifier without a leading `.` or `/`; in particular the bare
specifier `path` is excluded, so it can never give rise to an edge. -/
theorem C7_external_imports_filtered (astImports cjsImports :
    List ImportDeclaration) :
    (∀ imp ∈ parseImports astImports cjsImports,
      strStartsWith imp.source "." = true ∨
      strStartsWith imp.source "/" = true) ∧
    isExternalImport "path" = true ∧
    (∀ imp ∈ parseImports astImports cjsImports, imp.source ≠ "path") := by
  have hmain : ∀ imp ∈ parseImports astImports cjsImports,
      strStartsWith imp.source "." = true ∨
      strStartsWith imp.source "/" = true := by
    intro imp himp
    have h := (List.mem_filter.mp himp).2
    simp only [isExternalImport, Bool.not_and, Bool.not_not,
      Bool.or_eq_true] at h
    rcases h with h | h
    · left; simpa using h
    · right; simpa using h
  refine ⟨hmain, by decide, ?_⟩
  intro imp himp heq
  rcases hmain imp himp with h | h <;> rw [heq] at h <;>
    simp [strStartsWith] at h

/-- Witness for C7 at a concrete import list. -/
theorem C7_external_imports_filtered_witness :
    (∀ imp ∈ parseImports
      [{ source := "./a", names := [], line := 1 },
       { source := "path", names := [], line := 2 }] [],
      strStartsWith imp.source "." = true ∨
      strStartsWith imp.source "/" = true) ∧
    (∀ imp ∈ parseImports
      [{ source := "./a", names := [], line := 1 },
       { source := "path", names := [], line := 2 }] [],
      imp.source ≠ "path") :=
  ⟨(C7_external_imports_filtered
      [{ source := "./a", names := [], line := 1 },
       { source := "path", names := [], line := 2 }] []).1,
   (C7_external_imports_filtered
      [{ source := "./a", names := [], line := 1 },
       { source := "path", names := [], line := 2 }] []).2.2⟩

/-! ### C8: export-name assembly

`TypeScriptParserImpl.extractExports` walks the AST export statements;
an export statement contributes its declaration name (when present) and
its export-clause specifier names, and any statement whose text starts
with `export default` contributes the literal name `"default"`; the
list is deduplicated with `[...new Set(...)]`.  `parse` then appends
the CommonJS-detected exports with no further deduplication. -/

/-- The data `extractExports` reads off one AST `export_statement`. -/
structure ExportStmt where
  declName : Option String
  clauseNames : List String
  isExportDefault : Bool
  deriving Repr, DecidableEq

/-- `TypeScriptParserImpl.extractExports`. -/
def extractExports (stmts : List ExportStmt) : List String :=
  let exports := stmts.flatMap (fun s => s.declName.toList ++ s.clauseNames)
  let exports :=
    if stmts.any (·.isExportDefault) then exports ++ ["default"] else exports
  setDedup exports

/-- `[A-Za-z0-9_]` (JS word characters of the CommonJS regexes). -/
def isWordChar (c : Char) : Bool :=
  ('A' ≤ c ∧ c ≤ 'Z') ∨ ('a' ≤ c ∧ c ≤ 'z') ∨ ('0' ≤ c ∧ c ≤ '9') ∨ c = '_'

/-- Skip `\s*` (greedy; exact, since no whitespace can match what
follows the star in these patterns). -/
def skipWs (s : List Char) : List Char := s.dropWhile (fun c => c.isWhitespace)

/-- Match a literal at the current position. -/
def tryLit (lit s : List Char) : Option (List Char) :=
  if lit.isPrefixOf s then some (s.drop lit.length) else none

/-- Match `([A-Za-z0-9_]+)` greedily at the current position. -/
def takeIdent (s : List Char) : Option (List Char × List Char) :=
  let iden := s.takeWhile isWordChar
  if iden.isEmpty then none else some (iden, s.drop iden.length)

/-- Scan left to right for the first position where `f` matches
(`String.prototype.match` without the global flag). -/
def scanMatch {α : Type} (f : List Char → Option α) : List Char → Option α
  | [] => f []
  | s@(_ :: rest) =>
    match f s with
    | some r => some r
    | none => scanMatch f rest

/-- `/module\.exports\s*=\s*\{([^}]+)\}/` at the current position,
returning the capture. -/
def tryModuleExportsObject (s : List Char) : Option (List Char) :=
  match tryLit "module.exports".data s with
  | none => none
  | some s1 =>
    match skipWs s1 with
    | '=' :: s2 =>
      match skipWs s2 with
      | '{' :: s3 =>
        let cap := s3.takeWhile (· ≠ '}')
        if cap.isEmpty then none
        else
          match s3.drop cap.length with
          | '}' :: _ => some cap
          | _ => none
      | _ => none
    | _ => none

/-- `/module\.exports\s*=\s*([A-Za-z0-9_]+)/` at the current position. -/
def tryModuleExportsAssign (s : List Char) : Option (List Char) :=
  match tryLit "module.exports".data s with
  | none => none
  | some s1 =>
    match skipWs s1 with
    | '=' :: s2 =>
      match takeIdent (skipWs s2) with
      | some (iden, _) => some iden
      | none => none
    | _ => none

/-- `/exports\.([A-Za-z0-9_]+)\s*=/` at the current position. -/
def tryExportsAssign (s : List Char) : Option (List Char) :=
  match tryLit "exports.".data s with
  | none => none
  | some s1 =>
    match takeIdent s1 with
    | some (iden, s2) =>
      match skipWs s2 with
      | '=' :: _ => some iden
      | _ => none
    | none => none

/-- JS `String.prototype.trim`. -/
def strTrim (s : List Char) : List Char :=
  ((s.dropWhile (fun c => c.isWhitespace)).reverse.dropWhile
    (fun c => c.isWhitespace)).reverse

/-- `capture.split(',').map(s => s.split(':')[0].trim()).filter(Boolean)`. -/
def objectCaptureNames (cap : List Char) : List String :=
  ((splitOnL [','] cap).map (fun part =>
    String.mk (strTrim (((splitOnL [':'] part).headD []))))).filter (· ≠ "")

/-- The exports component of `TypeScriptParserImpl.extractCommonJS`
(the imports and definitions it also collects play no role in the
export list). -/
def extractCommonJSExports (lines : List String) : List String :=
  lines.flatMap (fun line =>
    let l := line.data
    (match scanMatch tryModuleExportsObject l with
     | some cap => objectCaptureNames cap
     | none => []) ++
    (match scanMatch tryModuleExportsAssign l with
     | some _ => ["default"]
     | none => []) ++
    (match scanMatch tryExportsAssign l with
     | some iden => [String.mk iden]
     | none => []))

/-- The export assembly of `TypeScriptParserImpl.parse`:
`extractExports` output followed by the CommonJS extras (`parse` pushes
the latter onto the former and never deduplicates again). -/
def parseExports (stmts : List ExportStmt) (contentLines : List String) :
    List String :=
  extractExports stmts ++ extractCommonJSExports contentLines

/-- C8 counterexample: a file whose two lines both assign
`exports.foo` yields the export list `["foo", "foo"]` — the list
returned by `parse` is *not* duplicate-free. -/
theorem C8_exports_dedup_counterexample :
    parseExports [] ["exports.foo = 1;", "exports.foo = 2;"] =
      ["foo", "foo"] ∧
    ¬ (parseExports [] ["exports.foo = 1;", "exports.foo = 2;"]).Nodup := by
  constructor
  · decide
  · decide

/-- C8 (amended): the AST-extracted export list is deduplicated and
represents a default export by the literal name `"default"`; the
CommonJS extras are appended afterwards without further deduplication
(so the combined list can repeat a name). -/
theorem C8_exports_dedup_amended (stmts : List ExportStmt)
    (contentLines : List String) :
    (extractExports stmts).Nodup ∧
    (stmts.any (·.isExportDefault) = true →
      "default" ∈ extractExports stmts) ∧
    parseExports stmts contentLines =
      extractExports stmts ++ extractCommonJSExports contentLines := by
  refine ⟨setDedup_nodup _, ?_, rfl⟩
  intro hdef
  simp only [extractExports]
  rw [if_pos hdef, setDedup_mem]
  exact List.mem_append_right _ (List.mem_singleton_self "default")

/-- The statement list used by the C8 witness. -/
def exStmts : List ExportStmt :=
  [{ declName := some "f", clauseNames := ["g"], isExportDefault := true }]

/-- Witness for C8 (amended) at a concrete statement list. -/
theorem C8_exports_dedup_amended_witness :
    (exStmts.any (·.isExportDefault) = true) ∧
    (extractExports exStmts).Nodup ∧
    "default" ∈ extractExports exStmts :=
  ⟨by decide,
   (C8_exports_dedup_amended exStmts []).1,
   (C8_exports_dedup_amended exStmts []).2.1 (by decide)⟩

/-! ## Pattern detection (`src/tools/detectPatterns.ts`) -/

/-- `Pattern`. -/
structure Pattern where
  pattern : String
  confidence : ℚ
  evidence : List String
  deriving Repr, DecidableEq

/-- `(ratio * 100).toFixed(1)` — decimal formatting to one place
(round half up; only used inside evidence strings). -/
def fmtFixed1 (q : ℚ) : String :=
  let n := (q * 10 + 1 / 2).floor
  toString (n / 10) ++ "." ++ toString (n % 10)

/-- `detectMVC`. -/
def detectMVC (files : List String) (repoRoot : String) (_graph : Graph) :
    Option Pattern :=
  let relFiles := files.map (fun f => strToLower (pathRelative repoRoot f))
  let hasModels := relFiles.any (fun f => strContains f "model")
  let hasViews := relFiles.any (fun f => strContains f "view")
  let hasControllers := relFiles.any (fun f => strContains f "controller")
  if hasModels ∧ hasViews ∧ hasControllers then
    some { pattern := "MVC (Model-View-Controller)"
           confidence := 9 / 10
           evidence := ["Found model files/directories",
                        "Found view files/directories",
                        "Found controller files/directories"] }
  else none

/-- `detectLayeredArch`. -/
def detectLayeredArch (files : List String) (repoRoot : String)
    (_graph : Graph) : Option Pattern :=
  let relFiles := files.map (fun f => strToLower (pathRelative repoRoot f))
  let api := relFiles.any (fun f => strContains f "api" || strContains f "route")
  let service := relFiles.any
    (fun f => strContains f "service" || strContains f "business")
  let data := relFiles.any (fun f => strContains f "data" ||
    strContains f "repository" || strContains f "dao")
  let layerCount := (if api then 1 else 0) + (if service then 1 else 0) +
    (if data then 1 else 0)
  if 2 ≤ layerCount then
    some { pattern := "Layered Architecture"
           confidence := if 3 ≤ layerCount then 9 / 10 else 7 / 10
           evidence := (if api then ["Found API/routing layer"] else []) ++
             (if service then ["Found service/business logic layer"] else []) ++
             (if data then ["Found data access layer"] else []) }
  else none

/-- `detectFeatureBased`. -/
def detectFeatureBased (files : List String) (repoRoot : String)
    (_graph : Graph) : Option Pattern :=
  let relFiles := files.map (fun f => pathRelative repoRoot f)
  let hasFeatures := relFiles.any
    (fun f => strContains f "features/" || strContains f "modules/")
  if hasFeatures then
    let featureDirs := setDedup (relFiles.flatMap (fun f =>
      if strContains f "features/" then
        match (strSplitOn f "features/").drop 1 with
        | second :: _ =>
          match strSplitOn second "/" with
          | p :: _ => [p]
          | [] => []
        | [] => []
      else if strContains f "modules/" then
        match (strSplitOn f "modules/").drop 1 with
        | second :: _ =>
          match strSplitOn second "/" with
          | p :: _ => [p]
          | [] => []
        | [] => []
      else []))
    if 2 ≤ featureDirs.length then
      some { pattern := "Feature-based Organization"
             confidence := 85 / 100
             evidence := ["Found " ++ toString featureDirs.length ++
                 " feature/module directories",
               "Features: " ++
                 strJoinSep ", " (featureDirs.take 5) ++
                 (if 5 < featureDirs.length then "..." else "")] }
    else none
  else none

/-- `detectMonorepo`. -/
def detectMonorepo (files : List String) (repoRoot : String)
    (_graph : Graph) : Option Pattern :=
  let relFiles := files.map (fun f => pathRelative repoRoot f)
  let hasPackages := relFiles.any (fun f => strStartsWith f "packages/")
  let hasApps := relFiles.any (fun f => strStartsWith f "apps/")
  if hasPackages || hasApps then
    some { pattern := "Monorepo"
           confidence := if hasPackages ∧ hasApps then 95 / 100 else 75 / 100
           evidence := (if hasPackages then ["Found packages/ directory"] else []) ++
             (if hasApps then ["Found apps/ directory"] else []) }
  else none

/-- `detectBarrelExports`. -/
def detectBarrelExports (files : List String) (repoRoot : String)
    (_graph : Graph) : Option Pattern :=
  let relFiles := files.map (fun f => pathRelative repoRoot f)
  let indexFiles := relFiles.filter (fun f =>
    let name := (strSplitOn f "/").getLastD ""
    name = "index.ts" ∨ name = "index.js" ∨ name = "index.tsx" ∨
      name = "index.jsx")
  let ratio : ℚ := (indexFiles.length : ℚ) / (files.length : ℚ)
  if 5 ≤ indexFiles.length ∧ 1 / 20 < ratio then
    some { pattern := "Barrel Exports"
           confidence := if 3 / 20 < ratio then 9 / 10 else 7 / 10
           evidence := ["Found " ++ toString indexFiles.length ++
               " index files (" ++ fmtFixed1 (ratio * 100) ++
               "% of all files)",
             "Index files used to re-export module contents"] }
  else none

/-- `detectDDD`. -/
def detectDDD (files : List String) (repoRoot : String) (_graph : Graph) :
    Option Pattern :=
  let relFiles := files.map (fun f => strToLower (pathRelative repoRoot f))
  let entities := relFiles.any (fun f => strContains f "entit")
  let repositories := relFiles.any (fun f => strContains f "repositor")
  let services := relFiles.any (fun f => strContains f "service")
  let valueObjects := relFiles.any
    (fun f => strContains f "value" || strContains f "vo")
  let aggregates := relFiles.any (fun f => strContains f "aggregate")
  let indicatorCount := (if entities then 1 else 0) +
    (if repositories then 1 else 0) + (if services then 1 else 0) +
    (if valueObjects then 1 else 0) + (if aggregates then 1 else 0)
  if 3 ≤ indicatorCount then
    some { pattern := "Domain-Driven Design (DDD)"
           confidence := if 4 ≤ indicatorCount then 85 / 100 else 7 / 10
           evidence := (if entities then ["Found entity files"] else []) ++
             (if repositories then ["Found repository pattern"] else []) ++
             (if services then ["Found domain services"] else []) ++
             (if valueObjects then ["Found value objects"] else []) ++
             (if aggregates then ["Found aggregates"] else []) }
  else none

/-! ### The cycle detector's DFS -/

/-- The DFS state: the JS `visited`/`stack` sets and the `cycles`
accumulator of `detectCircularDependencies`. -/
structure DfsSt where
  visited : List String
  stack : List String
  cycles : List (List String)
  deriving Repr, DecidableEq

/-- The `for (const neighbor of neighbors)` loop body of `dfs`; `rec`
is the recursive `dfs` call. -/
def dfsNbrs (adj : String → List String)
    (rec : DfsSt → String → List String → DfsSt) :
    DfsSt → List String → List String → DfsSt
  | st, [], _ => st
  | st, neighbor :: ns, path =>
    let st' :=
      if neighbor ∈ st.stack then
        if neighbor ∈ path then
          { st with cycles := st.cycles ++
              [path.drop (List.indexOf neighbor path) ++ [neighbor]] }
        else st
      else if neighbor ∈ st.visited then st
      else rec st neighbor path
    dfsNbrs adj rec st' ns path

/-- The recursive `dfs` of `detectCircularDependencies`.  The source
recursion is unbounded; here a fuel parameter makes it structural, and
`dfsRun` supplies enough fuel for it never to be exhausted (each
recursive call visits a not-yet-visited member of the universe). -/
def dfs (adj : String → List String) :
    Nat → DfsSt → String → List String → DfsSt
  | 0, st, _, _ => st
  | fuel + 1, st, node, path =>
    let st1 : DfsSt := { visited := node :: st.visited,
                         stack := node :: st.stack, cycles := st.cycles }
    let path1 := path ++ [node]
    let st2 := dfsNbrs adj (dfs adj fuel) st1 (adj node) path1
    { st2 with stack := st2.stack.erase node }

/-- Every string the DFS can be called on: the node keys and all
adjacency-list targets. -/
def dfsUniverse (graph : Graph) : List String :=
  graph.nodes.map Prod.fst ++ graph.adjacencyList.flatMap Prod.snd

/-- The root loop: `for (const node of nodes) if (!visited.has(node))
dfs(node, [])`. -/
def dfsRun (graph : Graph) : DfsSt :=
  (graph.nodes.map Prod.fst).foldl
    (fun st node =>
      if node ∈ st.visited then st
      else dfs (getImports graph) ((dfsUniverse graph).length + 1) st node [])
    { visited := [], stack := [], cycles := [] }

/-- `uniqueCycles`: deduplicate the recorded cycles by their printed
(`' -> '`-joined) node sequence. -/
def uniqueCycles (graph : Graph) : List (List String) :=
  (setDedup ((dfsRun graph).cycles.map (fun c => strJoinSep " -> " c))).map
    (fun s => strSplitOn s " -> ")

/-- `detectCircularDependencies`. -/
def detectCircularDependencies (_files : List String) (_repoRoot : String)
    (graph : Graph) : Option Pattern :=
  let cycles := (dfsRun graph).cycles
  if cycles.length = 0 then none
  else
    let uc := uniqueCycles graph
    let longest := uc.foldl (fun mx c => max mx c.length) 0
    some { pattern := "Circular Dependencies"
           confidence := min 1 ((uc.length : ℚ) / 5)
           evidence := ("Detected " ++ toString uc.length ++
               " cycles (longest length: " ++ toString longest ++ ")") ::
             (uc.take 3).map (fun c => "Cycle: " ++ strJoinSep " → " c) }

/-- `detectDeadCode`. -/
def detectDeadCode (_files : List String) (_repoRoot : String)
    (graph : Graph) : Option Pattern :=
  let unreferenced := (graph.nodes.map Prod.fst).filter
    (fun f => getImporters graph f = [])
  if unreferenced.length = 0 then none
  else
    some { pattern := "Unreferenced Files (Potential Dead Code)"
           confidence := min (9 / 10)
             ((unreferenced.length : ℚ) / (max 3 graph.nodes.length : ℚ))
           evidence := ["Found " ++ toString unreferenced.length ++
               " files with no importers",
             "Hotspots: " ++ strJoinSep ", "
               ((unreferenced.take 3).map
                 (fun f => (strSplitOn f "/").getLastD "")) ++ "..."] }

/-- `detectTests`. -/
def detectTests (files : List String) (repoRoot : String) (_graph : Graph) :
    Option Pattern :=
  let rel := files.map (fun f => strToLower (pathRelative repoRoot f))
  let testFiles := rel.filter
    (fun f => strContains f "test" || strContains f "__tests__")
  if testFiles.length = 0 then none
  else
    some { pattern := "Tests Present"
           confidence := min 1
             ((testFiles.length : ℚ) / (files.length : ℚ) + 2 / 10)
           evidence := ["Found " ++ toString testFiles.length ++ " test files",
             "Examples: " ++ strJoinSep ", " (testFiles.take 3)] }

/-- `detectConfigs` (the regex is an alternation of literal
substrings). -/
def detectConfigs (files : List String) (repoRoot : String)
    (_graph : Graph) : Option Pattern :=
  let rel := files.map (fun f => strToLower (pathRelative repoRoot f))
  let configs := rel.filter (fun f =>
    ["package.json", "tsconfig.json", "eslint", "prettier", "biome",
     ".env", "vite.config", "webpack.config", "rollup.config"].any
      (fun lit => strContains f lit))
  if configs.length = 0 then none
  else
    some { pattern := "Config Heavy"
           confidence := min 1
             ((configs.length : ℚ) / (files.length : ℚ) + 2 / 10)
           evidence := ["Found " ++ toString configs.length ++ " config files",
             "Examples: " ++ strJoinSep ", " (configs.take 3)] }

/-- A node with its degrees, as scored by `detectHotspots`. -/
structure ScoredNode where
  file : String
  indeg : Nat
  outdeg : Nat
  total : Nat
  deriving Repr, DecidableEq

/-- `detectHotspots`. -/
def detectHotspots (_files : List String) (_repoRoot : String)
    (graph : Graph) : Option Pattern :=
  if graph.nodes.length = 0 then none
  else
    let nodes := graph.nodes.map Prod.fst
    let scored := nodes.map (fun f =>
      { file := f, indeg := getInDegree graph f, outdeg := getOutDegree graph f,
        total := getInDegree graph f + getOutDegree graph f : ScoredNode })
    let sorted := scored.mergeSort (fun a b => b.total ≤ a.total)
    let top := sorted.take 3
    match top.head? with
    | none => none
    | some t0 =>
      some { pattern := "Graph Hotspots"
             confidence := min 1
               ((t0.total : ℚ) / (max 1 graph.nodes.length : ℚ))
             evidence := top.map (fun t => pathBasename t.file ++
               " (in:" ++ toString t.indeg ++ ", out:" ++
               toString t.outdeg ++ ")") }

/-- `PATTERN_DETECTORS`. -/
def PATTERN_DETECTORS : List (List String → String → Graph → Option Pattern) :=
  [detectMVC, detectLayeredArch, detectFeatureBased, detectMonorepo,
   detectBarrelExports, detectDDD, detectCircularDependencies,
   detectDeadCode, detectTests, detectConfigs, detectHotspots]

/-- `DetectPatternsInput` (`repoRoot` is optional; JS treats both a
missing and an empty root as falsy). -/
structure DetectPatternsInput where
  graph : Graph
  files : List String
  repoRoot : Option String

/-- `detectPatterns`: throws when `!repoRoot`; otherwise runs every
detector and sorts the findings by descending confidence. -/
def detectPatterns (input : DetectPatternsInput) :
    Except String (List Pattern) :=
  match input.repoRoot with
  | none => .error "repoRoot is required for pattern detection"
  | some root =>
    if root = "" then .error "repoRoot is required for pattern detection"
    else
      .ok ((PATTERN_DETECTORS.filterMap
        (fun d => d input.files root input.graph)).mergeSort
          (fun a b => b.confidence ≤ a.confidence))

/-! ### DFS bookkeeping lemmas (claim C4) -/

theorem dfsNbrs_stack (adj : String → List String)
    (rec : DfsSt → String → List String → DfsSt)
    (hrec : ∀ st n p, (rec st n p).stack = st.stack) :
    ∀ ns st path, (dfsNbrs adj rec st ns path).stack = st.stack := by
  intro ns
  induction ns with
  | nil => intro st path; rfl
  | cons w ns ih =>
    intro st path
    show (dfsNbrs adj rec _ ns path).stack = st.stack
    rw [ih]
    by_cases h1 : w ∈ st.stack
    · by_cases h2 : w ∈ path <;> simp [h1, h2]
    · by_cases h3 : w ∈ st.visited
      · simp [h1, h3]
      · simp [h1, h3, hrec]

theorem dfs_stack (adj : String → List String) :
    ∀ fuel st n path, (dfs adj fuel st n path).stack = st.stack := by
  intro fuel
  induction fuel with
  | zero => intro st n path; rfl
  | succ f ih =>
    intro st n path
    show ((dfsNbrs adj (dfs adj f) _ (adj n) (path ++ [n])).stack).erase n =
      st.stack
    rw [dfsNbrs_stack adj (dfs adj f) (fun st' n' p' => ih st' n' p')]
    exact List.erase_cons_head n st.stack

theorem dfsNbrs_visited_mono (adj : String → List String)
    (rec : DfsSt → String → List String → DfsSt)
    (hrec : ∀ st n p x, x ∈ st.visited → x ∈ (rec st n p).visited) :
    ∀ ns st path x, x ∈ st.visited →
      x ∈ (dfsNbrs adj rec st ns path).visited := by
  intro ns
  induction ns with
  | nil => intro st path x hx; exact hx
  | cons w ns ih =>
    intro st path x hx
    show x ∈ (dfsNbrs adj rec _ ns path).visited
    apply ih
    by_cases h1 : w ∈ st.stack
    · by_cases h2 : w ∈ path <;> simp [h1, h2, hx]
    · by_cases h3 : w ∈ st.visited
      · simp [h1, h3, hx]
      · simp only [if_neg h1, if_neg h3]
        exact hrec st w path x hx

theorem dfs_visited_mono (adj : String → List String) :
    ∀ fuel st n path x, x ∈ st.visited →
      x ∈ (dfs adj fuel st n path).visited := by
  intro fuel
  induction fuel with
  | zero => intro st n path x hx; exact hx
  | succ f ih =>
    intro st n path x hx
    show x ∈ (dfsNbrs adj (dfs adj f) _ (adj n) (path ++ [n])).visited
    exact dfsNbrs_visited_mono adj (dfs adj f)
      (fun st' n' p' x' hx' => ih st' n' p' x' hx') (adj n) _ _ x
      (List.mem_cons_of_mem n hx)

theorem dfsNbrs_cycles_ext (adj : String → List String)
    (rec : DfsSt → String → List String → DfsSt)
    (hrec : ∀ st n p, ∃ ext, (rec st n p).cycles = st.cycles ++ ext) :
    ∀ ns st path, ∃ ext,
      (dfsNbrs adj rec st ns path).cycles = st.cycles ++ ext := by
  intro ns
  induction ns with
  | nil => intro st path; exact ⟨[], (List.append_nil _).symm⟩
  | cons w ns ih =>
    intro st path
    show ∃ ext, (dfsNbrs adj rec _ ns path).cycles = st.cycles ++ ext
    by_cases h1 : w ∈ st.stack
    · by_cases h2 : w ∈ path
      · simp only [if_pos h1, if_pos h2]
        obtain ⟨ext, hext⟩ := ih ({ st with cycles := st.cycles ++
          [path.drop (List.indexOf w path) ++ [w]] }) path
        exact ⟨[path.drop (List.indexOf w path) ++ [w]] ++ ext,
          by rw [hext]; simp⟩
      · simp only [if_pos h1, if_neg h2]
        exact ih st path
    · by_cases h3 : w ∈ st.visited
      · simp only [if_neg h1, if_pos h3]
        exact ih st path
      · simp only [if_neg h1, if_neg h3]
        obtain ⟨ext1, hext1⟩ := hrec st w path
        obtain ⟨ext2, hext2⟩ := ih (rec st w path) path
        exact ⟨ext1 ++ ext2, by rw [hext2, hext1]; simp⟩

theorem dfs_cycles_ext (adj : String → List String) :
    ∀ fuel st n path, ∃ ext,
      (dfs adj fuel st n path).cycles = st.cycles ++ ext := by
  intro fuel
  induction fuel with
  | zero => intro st n path; exact ⟨[], (List.append_nil _).symm⟩
  | succ f ih =>
    intro st n path
    show ∃ ext, (dfsNbrs adj (dfs adj f) _ (adj n) (path ++ [n])).cycles =
      st.cycles ++ ext
    exact dfsNbrs_cycles_ext adj (dfs adj f)
      (fun st' n' p' => ih st' n' p') (adj n) _ _

theorem dfs_cycles_mono (adj : String → List String)
    (fuel : Nat) (st : DfsSt) (n : String) (path : List String)
    (h : st.cycles ≠ []) : (dfs adj fuel st n path).cycles ≠ [] := by
  obtain ⟨ext, hext⟩ := dfs_cycles_ext adj fuel st n path
  rw [hext]
  intro hc
  exact h (List.append_eq_nil.mp hc).1

theorem dfsNbrs_cycles_mono (adj : String → List String)
    (rec : DfsSt → String → List String → DfsSt)
    (hrec : ∀ st n p, ∃ ext, (rec st n p).cycles = st.cycles ++ ext)
    (ns : List String) (st : DfsSt) (path : List String)
    (h : st.cycles ≠ []) : (dfsNbrs adj rec st ns path).cycles ≠ [] := by
  obtain ⟨ext, hext⟩ := dfsNbrs_cycles_ext adj rec hrec ns st path
  rw [hext]
  intro hc
  exact h (List.append_eq_nil.mp hc).1

theorem dfs_marks (adj : String → List String) (fuel : Nat) (st : DfsSt)
    (n : String) (path : List String) (h : 1 ≤ fuel) :
    n ∈ (dfs adj fuel st n path).visited := by
  cases fuel with
  | zero => omega
  | succ f =>
    show n ∈ (dfsNbrs adj (dfs adj f) _ (adj n) (path ++ [n])).visited
    exact dfsNbrs_visited_mono adj (dfs adj f)
      (fun st' n' p' x' hx' => dfs_visited_mono adj f st' n' p' x' hx')
      (adj n) _ _ n (List.mem_cons_self n _)

/-- The termination measure of the fuelled DFS: how many universe
elements are still unvisited. -/
def dfsMeasure (U : List String) (st : DfsSt) : Nat :=
  (U.filter (fun x => x ∉ st.visited)).length

theorem filter_length_mono {α : Type} {p q : α → Bool} (U : List α)
    (h : ∀ x, p x = true → q x = true) :
    (U.filter p).length ≤ (U.filter q).length := by
  induction U with
  | nil => exact le_refl 0
  | cons u us ih =>
    by_cases hp : p u = true
    · rw [List.filter_cons_of_pos hp, List.filter_cons_of_pos (h u hp)]
      simpa using ih
    · rw [List.filter_cons_of_neg (by simpa using hp)]
      by_cases hq : q u = true
      · rw [List.filter_cons_of_pos hq]
        exact le_trans ih (Nat.le_succ _)
      · rw [List.filter_cons_of_neg (by simpa using hq)]
        exact ih

theorem dfsMeasure_mono (U : List String) {st st' : DfsSt}
    (h : ∀ x ∈ st.visited, x ∈ st'.visited) :
    dfsMeasure U st' ≤ dfsMeasure U st := by
  apply filter_length_mono
  intro x hx
  simp only [decide_eq_true_eq] at hx ⊢
  intro hmem
  exact hx (h x hmem)

theorem filter_notmem_cons_lt (U : List String) (n : String)
    (v : List String) (hU : n ∈ U) (hn : n ∉ v) :
    (U.filter (fun x => x ∉ n :: v)).length <
      (U.filter (fun x => x ∉ v)).length := by
  induction U with
  | nil => cases hU
  | cons u us ih =>
    by_cases hun : u = n
    · subst hun
      rw [List.filter_cons_of_neg (by simp), List.filter_cons_of_pos
        (by simpa using hn)]
      have hle : (us.filter (fun x => x ∉ u :: v)).length ≤
          (us.filter (fun x => x ∉ v)).length := by
        apply filter_length_mono
        intro x hx
        simp only [decide_eq_true_eq, List.mem_cons] at hx ⊢
        intro hxv
        exact hx (Or.inr hxv)
      simp only [List.length_cons]
      omega
    · have hU' : n ∈ us := by
        rcases List.mem_cons.mp hU with h | h
        · exact absurd h.symm hun
        · exact h
      by_cases huv : u ∈ v
      · rw [List.filter_cons_of_neg (by simp [huv]),
          List.filter_cons_of_neg (by simp [huv])]
        exact ih hU'
      · rw [List.filter_cons_of_pos (by simp [huv, hun]),
          List.filter_cons_of_pos (by simpa using huv)]
        simpa using ih hU'

theorem dfsMeasure_le (U : List String) (st : DfsSt) :
    dfsMeasure U st ≤ U.length :=
  List.length_filter_le _ U

/-! ### Cycle production lemmas -/

/-- If a neighbor `X` of the current frame is on the stack and on the
current path, the neighbor loop records a cycle. -/
theorem dfsNbrs_push (adj : String → List String)
    (rec : DfsSt → String → List String → DfsSt)
    (hrecStack : ∀ st n p, (rec st n p).stack = st.stack)
    (hrecExt : ∀ st n p, ∃ ext, (rec st n p).cycles = st.cycles ++ ext)
    (X : String) :
    ∀ ns st path, X ∈ ns → X ∈ st.stack → X ∈ path →
      (dfsNbrs adj rec st ns path).cycles ≠ [] := by
  intro ns
  induction ns with
  | nil => intro st path hX; cases hX
  | cons w ns ih =>
    intro st path hX hXs hXp
    show (dfsNbrs adj rec _ ns path).cycles ≠ []
    by_cases hw : w = X
    · subst hw
      rw [if_pos hXs, if_pos hXp]
      apply dfsNbrs_cycles_mono adj rec hrecExt
      simp
    · have hX' : X ∈ ns := by
        rcases List.mem_cons.mp hX with h | h
        · exact absurd h.symm hw
        · exact h
      by_cases h1 : w ∈ st.stack
      · by_cases h2 : w ∈ path
        · rw [if_pos h1, if_pos h2]
          exact ih _ path hX' hXs hXp
        · rw [if_pos h1, if_neg h2]
          exact ih st path hX' hXs hXp
      · by_cases h3 : w ∈ st.visited
        · rw [if_neg h1, if_pos h3]
          exact ih st path hX' hXs hXp
        · rw [if_neg h1, if_neg h3]
          apply ih _ path hX'
          · rw [hrecStack]; exact hXs
          · exact hXp

/-- If `Y` (with an edge `Y → X`) gets newly visited while `X` is on
the stack and on the path, a cycle is recorded (neighbor-loop form). -/
theorem dfsNbrs_NV (adj : String → List String)
    (rec : DfsSt → String → List String → DfsSt)
    (hrecStack : ∀ st n p, (rec st n p).stack = st.stack)
    (hrecExt : ∀ st n p, ∃ ext, (rec st n p).cycles = st.cycles ++ ext)
    (X Y : String)
    (hrecNV : ∀ st n p, X ∈ st.stack → X ∈ p → Y ∉ st.visited →
      Y ∈ (rec st n p).visited → (rec st n p).cycles ≠ []) :
    ∀ ns st path, X ∈ st.stack → X ∈ path → Y ∉ st.visited →
      Y ∈ (dfsNbrs adj rec st ns path).visited →
      (dfsNbrs adj rec st ns path).cycles ≠ [] := by
  intro ns
  induction ns with
  | nil =>
    intro st path _ _ hY hYmem
    exact absurd hYmem hY
  | cons w ns ih =>
    intro st path hXs hXp hY hYmem
    have hYmem2 : Y ∈ (dfsNbrs adj rec
        (if w ∈ st.stack then
          if w ∈ path then
            { st with cycles := st.cycles ++
                [path.drop (List.indexOf w path) ++ [w]] }
          else st
        else if w ∈ st.visited then st else rec st w path)
        ns path).visited := hYmem
    show (dfsNbrs adj rec _ ns path).cycles ≠ []
    by_cases h1 : w ∈ st.stack
    · by_cases h2 : w ∈ path
      · rw [if_pos h1, if_pos h2] at hYmem2 ⊢
        apply dfsNbrs_cycles_mono adj rec hrecExt
        simp
      · rw [if_pos h1, if_neg h2] at hYmem2 ⊢
        exact ih st path hXs hXp hY hYmem2
    · by_cases h3 : w ∈ st.visited
      · rw [if_neg h1, if_pos h3] at hYmem2 ⊢
        exact ih st path hXs hXp hY hYmem2
      · rw [if_neg h1, if_neg h3] at hYmem2 ⊢
        by_cases hYr : Y ∈ (rec st w path).visited
        · apply dfsNbrs_cycles_mono adj rec hrecExt
          exact hrecNV st w path hXs hXp hY hYr
        · apply ih _ path _ hXp _ hYmem2
          · rw [hrecStack]; exact hXs
          · exact hYr

/-- If `Y` (with an edge `Y → X`) gets newly visited during a `dfs`
call while `X` is on the stack and on the path, a cycle is recorded. -/
theorem dfs_NV (adj : String → List String) (X Y : String)
    (hXY : X ∈ adj Y) :
    ∀ fuel st n path, X ∈ st.stack → X ∈ path → Y ∉ st.visited →
      Y ∈ (dfs adj fuel st n path).visited →
      (dfs adj fuel st n path).cycles ≠ [] := by
  intro fuel
  induction fuel with
  | zero =>
    intro st n path _ _ hY hYmem
    exact absurd hYmem hY
  | succ f ih =>
    intro st n path hXs hXp hY hYmem
    show (dfsNbrs adj (dfs adj f) _ (adj n) (path ++ [n])).cycles ≠ []
    have hYmem2 : Y ∈ (dfsNbrs adj (dfs adj f)
        { visited := n :: st.visited, stack := n :: st.stack,
          cycles := st.cycles } (adj n) (path ++ [n])).visited := hYmem
    by_cases hn : n = Y
    · subst hn
      exact dfsNbrs_push adj (dfs adj f)
        (fun st' n' p' => dfs_stack adj f st' n' p')
        (fun st' n' p' => dfs_cycles_ext adj f st' n' p') X (adj n)
        _ _ hXY (List.mem_cons_of_mem n hXs)
        (List.mem_append_left _ hXp)
    · exact dfsNbrs_NV adj (dfs adj f)
        (fun st' n' p' => dfs_stack adj f st' n' p')
        (fun st' n' p' => dfs_cycles_ext adj f st' n' p') X Y
        (fun st' n' p' => ih st' n' p') (adj n) _ _
        (List.mem_cons_of_mem n hXs) (List.mem_append_left _ hXp)
        (by intro hmem; rcases List.mem_cons.mp hmem with h | h
            · exact hn h.symm
            · exact hY h)
        hYmem2

/-- The key DFS invariant for a fixed pair `A`, `B`: whenever one of
them has been fully explored (visited and off the stack), the other is
already visited or a cycle has been recorded. -/
def SpecAB (A B : String) (st : DfsSt) : Prop :=
  (A ∈ st.visited → A ∉ st.stack → (B ∈ st.visited ∨ st.cycles ≠ [])) ∧
  (B ∈ st.visited → B ∉ st.stack → (A ∈ st.visited ∨ st.cycles ≠ []))

theorem SpecAB_of_cycles {A B : String} {st : DfsSt}
    (h : st.cycles ≠ []) : SpecAB A B st :=
  ⟨fun _ _ => Or.inr h, fun _ _ => Or.inr h⟩

/-- After the neighbor loop, every neighbor is visited or a cycle has
been recorded. -/
theorem dfsNbrs_frame (adj : String → List String)
    (rec : DfsSt → String → List String → DfsSt)
    (hrecStack : ∀ st n p, (rec st n p).stack = st.stack)
    (hrecVis : ∀ st n p x, x ∈ st.visited → x ∈ (rec st n p).visited)
    (hrecExt : ∀ st n p, ∃ ext, (rec st n p).cycles = st.cycles ++ ext)
    (hrecMarks : ∀ st n p, n ∈ (rec st n p).visited) :
    ∀ ns st path, (∀ x ∈ st.stack, x ∈ path) →
      ∀ w ∈ ns, w ∈ (dfsNbrs adj rec st ns path).visited ∨
        (dfsNbrs adj rec st ns path).cycles ≠ [] := by
  intro ns
  induction ns with
  | nil => intro st path _ w hw; cases hw
  | cons v ns ih =>
    intro st path hsp w hw
    show w ∈ (dfsNbrs adj rec _ ns path).visited ∨
      (dfsNbrs adj rec _ ns path).cycles ≠ []
    rcases List.mem_cons.mp hw with hwv | hwns
    · subst hwv
      by_cases h1 : w ∈ st.stack
      · rw [if_pos h1, if_pos (hsp w h1)]
        right
        apply dfsNbrs_cycles_mono adj rec hrecExt
        simp
      · by_cases h3 : w ∈ st.visited
        · rw [if_neg h1, if_pos h3]
          left
          exact dfsNbrs_visited_mono adj rec hrecVis ns _ path w h3
        · rw [if_neg h1, if_neg h3]
          left
          exact dfsNbrs_visited_mono adj rec hrecVis ns _ path w
            (hrecMarks st w path)
    · by_cases h1 : v ∈ st.stack
      · by_cases h2 : v ∈ path
        · rw [if_pos h1, if_pos h2]
          exact ih { st with cycles := st.cycles ++
            [path.drop (List.indexOf v path) ++ [v]] } path hsp w hwns
        · rw [if_pos h1, if_neg h2]
          exact ih st path hsp w hwns
      · by_cases h3 : v ∈ st.visited
        · rw [if_neg h1, if_pos h3]
          exact ih st path hsp w hwns
        · rw [if_neg h1, if_neg h3]
          apply ih (rec st v path) path _ w hwns
          intro x hx
          rw [hrecStack] at hx
          exact hsp x hx

/-- Neighbor-loop form of the main lemma: the `SpecAB` invariant is
preserved, and if the pair becomes fully visited during the loop while
it was not before, a cycle is recorded. -/
theorem dfsNbrs_MUT (adj : String → List String) (U : List String)
    (A B : String) (f : Nat)
    (rec : DfsSt → String → List String → DfsSt)
    (hrecStack : ∀ st n p, (rec st n p).stack = st.stack)
    (hrecVis : ∀ st n p x, x ∈ st.visited → x ∈ (rec st n p).visited)
    (hrecExt : ∀ st n p, ∃ ext, (rec st n p).cycles = st.cycles ++ ext)
    (hrecMUT : ∀ st n p, n ∉ st.visited → n ∈ U →
      dfsMeasure U st + 1 ≤ f → (∀ x ∈ st.stack, x ∈ p) →
      (∀ x ∈ st.stack, x ∈ st.visited) → SpecAB A B st →
      SpecAB A B (rec st n p) ∧
      (¬ (A ∈ st.visited ∧ B ∈ st.visited) → A ∈ (rec st n p).visited →
        B ∈ (rec st n p).visited → (rec st n p).cycles ≠ [])) :
    ∀ ns st path, (∀ w ∈ ns, w ∈ U) → dfsMeasure U st + 1 ≤ f →
      (∀ x ∈ st.stack, x ∈ path) → (∀ x ∈ st.stack, x ∈ st.visited) →
      SpecAB A B st →
      SpecAB A B (dfsNbrs adj rec st ns path) ∧
      (¬ (A ∈ st.visited ∧ B ∈ st.visited) →
        A ∈ (dfsNbrs adj rec st ns path).visited →
        B ∈ (dfsNbrs adj rec st ns path).visited →
        (dfsNbrs adj rec st ns path).cycles ≠ []) := by
  intro ns
  induction ns with
  | nil =>
    intro st path _ _ _ _ hspec
    refine ⟨hspec, ?_⟩
    intro hnboth hA hB
    exact absurd ⟨hA, hB⟩ hnboth
  | cons v ns ih =>
    intro st path hUns hμ hsp hsv hspec
    have hUns' : ∀ w ∈ ns, w ∈ U := fun w hw => hUns w (List.mem_cons_of_mem v hw)
    -- establish the per-branch facts about the intermediate state st'
    have key : ∀ st' : DfsSt,
        st'.stack = st.stack →
        (∀ x ∈ st.visited, x ∈ st'.visited) →
        dfsMeasure U st' + 1 ≤ f →
        SpecAB A B st' →
        (¬ (A ∈ st.visited ∧ B ∈ st.visited) →
          A ∈ st'.visited → B ∈ st'.visited → st'.cycles ≠ []) →
        (∃ ext, st'.cycles = st.cycles ++ ext) →
        SpecAB A B (dfsNbrs adj rec st' ns path) ∧
        (¬ (A ∈ st.visited ∧ B ∈ st.visited) →
          A ∈ (dfsNbrs adj rec st' ns path).visited →
          B ∈ (dfsNbrs adj rec st' ns path).visited →
          (dfsNbrs adj rec st' ns path).cycles ≠ []) := by
      intro st' hstk hvis hμ' hspec' hmut' _
      have hres := ih st' path hUns' hμ'
        (by intro x hx; rw [hstk] at hx; exact hsp x hx)
        (by intro x hx; rw [hstk] at hx; exact hvis x (hsv x hx))
        hspec'
      refine ⟨hres.1, ?_⟩
      intro hnboth hA hB
      by_cases hboth' : A ∈ st'.visited ∧ B ∈ st'.visited
      · apply dfsNbrs_cycles_mono adj rec hrecExt
        exact hmut' hnboth hboth'.1 hboth'.2
      · exact hres.2 hboth' hA hB
    have hred : dfsNbrs adj rec st (v :: ns) path =
        dfsNbrs adj rec
          (if v ∈ st.stack then
            if v ∈ path then
              { st with cycles := st.cycles ++
                  [path.drop (List.indexOf v path) ++ [v]] }
            else st
          else if v ∈ st.visited then st else rec st v path)
          ns path := rfl
    rw [hred]
    by_cases h1 : v ∈ st.stack
    · by_cases h2 : v ∈ path
      · rw [if_pos h1, if_pos h2]
        apply key
        · rfl
        · intro x hx; exact hx
        · exact hμ
        · exact SpecAB_of_cycles (by simp)
        · intro _ _ _; simp
        · exact ⟨_, rfl⟩
      · rw [if_pos h1, if_neg h2]
        apply key st rfl (fun x hx => hx) hμ hspec
        · intro hnboth hA hB; exact absurd ⟨hA, hB⟩ hnboth
        · exact ⟨[], (List.append_nil _).symm⟩
    · by_cases h3 : v ∈ st.visited
      · rw [if_neg h1, if_pos h3]
        apply key st rfl (fun x hx => hx) hμ hspec
        · intro hnboth hA hB; exact absurd ⟨hA, hB⟩ hnboth
        · exact ⟨[], (List.append_nil _).symm⟩
      · rw [if_neg h1, if_neg h3]
        have hrec := hrecMUT st v path h3 (hUns v (List.mem_cons_self v ns))
          hμ hsp hsv hspec
        apply key
        · exact hrecStack st v path
        · exact fun x hx => hrecVis st v path x hx
        · have := @dfsMeasure_mono U st (rec st v path)
            (fun x hx => hrecVis st v path x hx)
          omega
        · exact hrec.1
        · exact hrec.2
        · exact hrecExt st v path

/-- The state right after a `dfs` frame adds its node to `visited` and
`stack`. -/
def dfsEnter (st : DfsSt) (node : String) : DfsSt :=
  { visited := node :: st.visited, stack := node :: st.stack,
    cycles := st.cycles }

/-- Main lemma: a `dfs` call preserves `SpecAB`, and if the mutually
adjacent pair `A`, `B` becomes fully visited during the call while it
was not before, a cycle is recorded. -/
theorem dfs_MUT (adj : String → List String) (U : List String)
    (A B : String) (hAB : A ≠ B) (hadjAB : B ∈ adj A)
    (hadjBA : A ∈ adj B) (hUadj : ∀ n, ∀ w ∈ adj n, w ∈ U) :
    ∀ fuel st n path, n ∉ st.visited → n ∈ U →
      dfsMeasure U st + 1 ≤ fuel →
      (∀ x ∈ st.stack, x ∈ path) → (∀ x ∈ st.stack, x ∈ st.visited) →
      SpecAB A B st →
      SpecAB A B (dfs adj fuel st n path) ∧
      (¬ (A ∈ st.visited ∧ B ∈ st.visited) →
        A ∈ (dfs adj fuel st n path).visited →
        B ∈ (dfs adj fuel st n path).visited →
        (dfs adj fuel st n path).cycles ≠ []) := by
  intro fuel
  induction fuel with
  | zero =>
    intro st n path _ _ hμ _ _ _
    omega
  | succ f ih =>
    intro st n path hn hU hμ hsp hsv hspec
    have hμ1 : dfsMeasure U (dfsEnter st n) + 1 ≤ f := by
      have hlt := filter_notmem_cons_lt U n st.visited hU hn
      unfold dfsMeasure at hμ ⊢
      unfold dfsEnter
      simp only []
      omega
    have hf1 : 1 ≤ f := by omega
    have hsp1 : ∀ x ∈ (dfsEnter st n).stack, x ∈ path ++ [n] := by
      intro x hx
      rcases List.mem_cons.mp hx with h | h
      · subst h; exact List.mem_append_right _ (List.mem_singleton_self x)
      · exact List.mem_append_left _ (hsp x h)
    have hsv1 : ∀ x ∈ (dfsEnter st n).stack, x ∈ (dfsEnter st n).visited := by
      intro x hx
      rcases List.mem_cons.mp hx with h | h
      · subst h; exact List.mem_cons_self x _
      · exact List.mem_cons_of_mem n (hsv x h)
    have hspec1 : SpecAB A B (dfsEnter st n) := by
      constructor
      · intro hA hAs
        have hA' : A ∈ st.visited := by
          rcases List.mem_cons.mp hA with h | h
          · exact absurd (show A ∈ (dfsEnter st n).stack from
              h ▸ List.mem_cons_self n st.stack) hAs
          · exact h
        have hAs' : A ∉ st.stack := fun h =>
          hAs (List.mem_cons_of_mem n h)
        rcases hspec.1 hA' hAs' with h | h
        · exact Or.inl (List.mem_cons_of_mem n h)
        · exact Or.inr h
      · intro hB hBs
        have hB' : B ∈ st.visited := by
          rcases List.mem_cons.mp hB with h | h
          · exact absurd (show B ∈ (dfsEnter st n).stack from
              h ▸ List.mem_cons_self n st.stack) hBs
          · exact h
        have hBs' : B ∉ st.stack := fun h =>
          hBs (List.mem_cons_of_mem n h)
        rcases hspec.2 hB' hBs' with h | h
        · exact Or.inl (List.mem_cons_of_mem n h)
        · exact Or.inr h
    have hmain := dfsNbrs_MUT adj U A B f (dfs adj f)
      (fun st' n' p' => dfs_stack adj f st' n' p')
      (fun st' n' p' x hx => dfs_visited_mono adj f st' n' p' x hx)
      (fun st' n' p' => dfs_cycles_ext adj f st' n' p')
      (fun st' n' p' hn' hU' hμ' hsp' hsv' hspec' =>
        ih st' n' p' hn' hU' hμ' hsp' hsv' hspec')
      (adj n) (dfsEnter st n) (path ++ [n]) (hUadj n) hμ1 hsp1 hsv1 hspec1
    have hstk2 : (dfsNbrs adj (dfs adj f) (dfsEnter st n) (adj n)
        (path ++ [n])).stack = n :: st.stack :=
      dfsNbrs_stack adj (dfs adj f)
        (fun st' n' p' => dfs_stack adj f st' n' p') (adj n) _ _
    have hframe := dfsNbrs_frame adj (dfs adj f)
      (fun st' n' p' => dfs_stack adj f st' n' p')
      (fun st' n' p' x hx => dfs_visited_mono adj f st' n' p' x hx)
      (fun st' n' p' => dfs_cycles_ext adj f st' n' p')
      (fun st' n' p' => dfs_marks adj f st' n' p' hf1)
      (adj n) (dfsEnter st n) (path ++ [n]) hsp1
    have hv : (dfs adj (f + 1) st n path).visited =
        (dfsNbrs adj (dfs adj f) (dfsEnter st n) (adj n)
          (path ++ [n])).visited := rfl
    have hc : (dfs adj (f + 1) st n path).cycles =
        (dfsNbrs adj (dfs adj f) (dfsEnter st n) (adj n)
          (path ++ [n])).cycles := rfl
    have hs : (dfs adj (f + 1) st n path).stack = st.stack :=
      dfs_stack adj (f + 1) st n path
    constructor
    · constructor
      · intro hA2 hAns
        rw [hv] at hA2
        rw [hs] at hAns
        rw [hv, hc]
        by_cases hnA : n = A
        · subst hnA
          exact hframe B hadjAB
        · apply hmain.1.1 hA2
          rw [hstk2]
          intro hmem
          rcases List.mem_cons.mp hmem with h | h
          · exact hnA h.symm
          · exact hAns h
      · intro hB2 hBns
        rw [hv] at hB2
        rw [hs] at hBns
        rw [hv, hc]
        by_cases hnB : n = B
        · subst hnB
          exact hframe A hadjBA
        · apply hmain.1.2 hB2
          rw [hstk2]
          intro hmem
          rcases List.mem_cons.mp hmem with h | h
          · exact hnB h.symm
          · exact hBns h
    · intro hnboth hA2 hB2
      rw [hv] at hA2 hB2
      rw [hc]
      by_cases hA0 : A ∈ st.visited <;> by_cases hB0 : B ∈ st.visited
      · exact absurd ⟨hA0, hB0⟩ hnboth
      · -- A visited before this call, B not
        have hnA : n ≠ A := fun h => hn (h ▸ hA0)
        by_cases hAs : A ∈ st.stack
        · by_cases hnB : n = B
          · subst hnB
            exact dfsNbrs_push adj (dfs adj f)
              (fun st' n' p' => dfs_stack adj f st' n' p')
              (fun st' n' p' => dfs_cycles_ext adj f st' n' p')
              A (adj n) _ _ hadjBA (List.mem_cons_of_mem n hAs)
              (List.mem_append_left _ (hsp A hAs))
          · apply dfsNbrs_NV adj (dfs adj f)
              (fun st' n' p' => dfs_stack adj f st' n' p')
              (fun st' n' p' => dfs_cycles_ext adj f st' n' p')
              A B (fun st' n' p' => dfs_NV adj A B hadjBA f st' n' p')
              (adj n) _ _ (List.mem_cons_of_mem n hAs)
              (List.mem_append_left _ (hsp A hAs))
              (by intro hmem
                  rcases List.mem_cons.mp hmem with h | h
                  · exact hnB h.symm
                  · exact hB0 h)
              hB2
        · rcases hspec.1 hA0 hAs with h | h
          · exact absurd h hB0
          · exact dfsNbrs_cycles_mono adj (dfs adj f)
              (fun st' n' p' => dfs_cycles_ext adj f st' n' p')
              (adj n) _ _ h
      · -- B visited before this call, A not
        have hnB : n ≠ B := fun h => hn (h ▸ hB0)
        by_cases hBs : B ∈ st.stack
        · by_cases hnA : n = A
          · subst hnA
            exact dfsNbrs_push adj (dfs adj f)
              (fun st' n' p' => dfs_stack adj f st' n' p')
              (fun st' n' p' => dfs_cycles_ext adj f st' n' p')
              B (adj n) _ _ hadjAB (List.mem_cons_of_mem n hBs)
              (List.mem_append_left _ (hsp B hBs))
          · apply dfsNbrs_NV adj (dfs adj f)
              (fun st' n' p' => dfs_stack adj f st' n' p')
              (fun st' n' p' => dfs_cycles_ext adj f st' n' p')
              B A (fun st' n' p' => dfs_NV adj B A hadjAB f st' n' p')
              (adj n) _ _ (List.mem_cons_of_mem n hBs)
              (List.mem_append_left _ (hsp B hBs))
              (by intro hmem
                  rcases List.mem_cons.mp hmem with h | h
                  · exact hnA h.symm
                  · exact hA0 h)
              hA2
        · rcases hspec.2 hB0 hBs with h | h
          · exact absurd h hA0
          · exact dfsNbrs_cycles_mono adj (dfs adj f)
              (fun st' n' p' => dfs_cycles_ext adj f st' n' p')
              (adj n) _ _ h
      · -- neither visited before this call
        by_cases hnA : n = A
        · subst hnA
          apply dfsNbrs_NV adj (dfs adj f)
            (fun st' n' p' => dfs_stack adj f st' n' p')
            (fun st' n' p' => dfs_cycles_ext adj f st' n' p')
            n B (fun st' n' p' => dfs_NV adj n B hadjBA f st' n' p')
            (adj n) _ _ (List.mem_cons_self n _)
            (List.mem_append_right _ (List.mem_singleton_self n))
            (by intro hmem
                rcases List.mem_cons.mp hmem with h | h
                · exact hAB h.symm
                · exact hB0 h)
            hB2
        · by_cases hnB : n = B
          · subst hnB
            apply dfsNbrs_NV adj (dfs adj f)
              (fun st' n' p' => dfs_stack adj f st' n' p')
              (fun st' n' p' => dfs_cycles_ext adj f st' n' p')
              n A (fun st' n' p' => dfs_NV adj n A hadjAB f st' n' p')
              (adj n) _ _ (List.mem_cons_self n _)
              (List.mem_append_right _ (List.mem_singleton_self n))
              (by intro hmem
                  rcases List.mem_cons.mp hmem with h | h
                  · exact hAB h
                  · exact hA0 h)
              hA2
          · apply hmain.2 _ hA2 hB2
            intro hboth
            rcases List.mem_cons.mp hboth.1 with h | h
            · exact hnA h.symm
            · exact hA0 h

/-! ### The root loop -/

theorem rootFold_stack (adj : String → List String) (FUEL : Nat) :
    ∀ nodes : List String, ∀ st : DfsSt,
      (nodes.foldl (fun st node => if node ∈ st.visited then st
        else dfs adj FUEL st node []) st).stack = st.stack := by
  intro nodes
  induction nodes with
  | nil => intro st; rfl
  | cons v ns ih =>
    intro st
    rw [List.foldl_cons, ih]
    by_cases h : v ∈ st.visited
    · rw [if_pos h]
    · rw [if_neg h]
      exact dfs_stack adj FUEL st v []

theorem rootFold_vis_mono (adj : String → List String) (FUEL : Nat) :
    ∀ nodes : List String, ∀ st : DfsSt, ∀ x ∈ st.visited,
      x ∈ (nodes.foldl (fun st node => if node ∈ st.visited then st
        else dfs adj FUEL st node []) st).visited := by
  intro nodes
  induction nodes with
  | nil => intro st x hx; exact hx
  | cons v ns ih =>
    intro st x hx
    rw [List.foldl_cons]
    apply ih
    by_cases h : v ∈ st.visited
    · rw [if_pos h]; exact hx
    · rw [if_neg h]
      exact dfs_visited_mono adj FUEL st v [] x hx

theorem rootFold_marks (adj : String → List String) (FUEL : Nat)
    (hF : 1 ≤ FUEL) :
    ∀ nodes : List String, ∀ st : DfsSt, ∀ v ∈ nodes,
      v ∈ (nodes.foldl (fun st node => if node ∈ st.visited then st
        else dfs adj FUEL st node []) st).visited := by
  intro nodes
  induction nodes with
  | nil => intro st v hv; cases hv
  | cons w ns ih =>
    intro st v hv
    rw [List.foldl_cons]
    rcases List.mem_cons.mp hv with h | h
    · subst h
      apply rootFold_vis_mono
      by_cases hw : v ∈ st.visited
      · rw [if_pos hw]; exact hw
      · rw [if_neg hw]
        exact dfs_marks adj FUEL st v [] hF
    · exact ih _ v h

theorem rootFold_cycles_ext (adj : String → List String) (FUEL : Nat) :
    ∀ nodes : List String, ∀ st : DfsSt, ∃ ext,
      (nodes.foldl (fun st node => if node ∈ st.visited then st
        else dfs adj FUEL st node []) st).cycles = st.cycles ++ ext := by
  intro nodes
  induction nodes with
  | nil => intro st; exact ⟨[], (List.append_nil _).symm⟩
  | cons v ns ih =>
    intro st
    rw [List.foldl_cons]
    by_cases h : v ∈ st.visited
    · rw [if_pos h]; exact ih st
    · rw [if_neg h]
      obtain ⟨e1, he1⟩ := dfs_cycles_ext adj FUEL st v []
      obtain ⟨e2, he2⟩ := ih (dfs adj FUEL st v [])
      exact ⟨e1 ++ e2, by rw [he2, he1, List.append_assoc]⟩

theorem rootFold_MUT (adj : String → List String) (U : List String)
    (A B : String) (hAB : A ≠ B) (hadjAB : B ∈ adj A)
    (hadjBA : A ∈ adj B) (hUadj : ∀ n, ∀ w ∈ adj n, w ∈ U)
    (FUEL : Nat) (hFUEL : U.length + 1 ≤ FUEL) :
    ∀ nodes : List String, (∀ v ∈ nodes, v ∈ U) → ∀ st : DfsSt,
      st.stack = [] → SpecAB A B st →
      (¬ (A ∈ st.visited ∧ B ∈ st.visited) →
        A ∈ (nodes.foldl (fun st node => if node ∈ st.visited then st
          else dfs adj FUEL st node []) st).visited →
        B ∈ (nodes.foldl (fun st node => if node ∈ st.visited then st
          else dfs adj FUEL st node []) st).visited →
        (nodes.foldl (fun st node => if node ∈ st.visited then st
          else dfs adj FUEL st node []) st).cycles ≠ []) := by
  intro nodes
  induction nodes with
  | nil =>
    intro _ st _ _ hnboth hA hB
    exact absurd ⟨hA, hB⟩ hnboth
  | cons v ns ih =>
    intro hnodesU st hstk hspec hnboth hA hB
    rw [List.foldl_cons] at hA hB ⊢
    have hnodesU' : ∀ w ∈ ns, w ∈ U :=
      fun w hw => hnodesU w (List.mem_cons_of_mem v hw)
    by_cases hv : v ∈ st.visited
    · rw [if_pos hv] at hA hB ⊢
      exact ih hnodesU' st hstk hspec hnboth hA hB
    · rw [if_neg hv] at hA hB ⊢
      have hdfs := dfs_MUT adj U A B hAB hadjAB hadjBA hUadj FUEL st v []
        hv (hnodesU v (List.mem_cons_self v ns))
        (by have := dfsMeasure_le U st; omega)
        (by rw [hstk]; intro x hx; cases hx)
        (by rw [hstk]; intro x hx; cases hx)
        hspec
      have hstk' : (dfs adj FUEL st v []).stack = [] := by
        rw [dfs_stack adj FUEL st v [], hstk]
      by_cases hboth' : A ∈ (dfs adj FUEL st v []).visited ∧
          B ∈ (dfs adj FUEL st v []).visited
      · have hcyc := hdfs.2 hnboth hboth'.1 hboth'.2
        obtain ⟨ext, hext⟩ := rootFold_cycles_ext adj FUEL ns
          (dfs adj FUEL st v [])
        rw [hext]
        intro hnil
        exact hcyc (List.append_eq_nil.mp hnil).1
      · exact ih hnodesU' (dfs adj FUEL st v []) hstk' hdfs.1 hboth' hA hB

/-! ### Soundness: recorded cycles are real cycles -/

/-- A closed non-trivial walk of the adjacency relation. -/
def ClosedWalk (adj : String → List String) (c : List String) : Prop :=
  2 ≤ c.length ∧ List.Chain' (fun a b => b ∈ adj a) c ∧
    c.head? = c.getLast?

/-- A graph with no closed walk over its forward adjacency. -/
def Acyclic (graph : Graph) : Prop :=
  ¬ ∃ c, ClosedWalk (getImports graph) c

theorem pushedCycle_closedWalk (adj : String → List String)
    (path : List String) (w n : String) (hw : w ∈ path)
    (hlast : path.getLast? = some n)
    (hchain : List.Chain' (fun a b => b ∈ adj a) path)
    (hwn : w ∈ adj n) :
    ClosedWalk adj (path.drop (List.indexOf w path) ++ [w]) := by
  have hidx : List.indexOf w path < path.length :=
    List.indexOf_lt_length.mpr hw
  have hhead : (path.drop (List.indexOf w path)).head? = some w := by
    rw [List.head?_drop]
    rw [List.getElem?_eq_getElem hidx]
    rw [List.getElem_indexOf hidx]
  obtain ⟨tail, htail⟩ : ∃ tail,
      path.drop (List.indexOf w path) = w :: tail := by
    cases hdrop : path.drop (List.indexOf w path) with
    | nil => rw [hdrop] at hhead; cases hhead
    | cons a t =>
      rw [hdrop] at hhead
      simp only [List.head?_cons, Option.some_inj] at hhead
      exact ⟨t, by rw [hhead]⟩
  have hlastd : (path.drop (List.indexOf w path)).getLast? = some n := by
    have hsplit : path = path.take (List.indexOf w path) ++
        path.drop (List.indexOf w path) := (List.take_append_drop _ _).symm
    rw [hsplit, List.getLast?_append, htail] at hlast
    rw [htail]
    simpa using hlast
  have hchaind : List.Chain' (fun a b => b ∈ adj a)
      (path.drop (List.indexOf w path)) := hchain.drop _
  refine ⟨?_, ?_, ?_⟩
  · rw [htail]
    simp
  · rw [List.chain'_append]
    refine ⟨hchaind, List.chain'_singleton w, ?_⟩
    intro x hx y hy
    rw [hlastd] at hx
    simp only [Option.mem_def, Option.some_inj] at hx
    simp only [List.head?_cons, Option.mem_def, Option.some_inj] at hy
    rw [← hx, ← hy]
    exact hwn
  · rw [htail, List.getLast?_concat, List.cons_append, List.head?_cons]

theorem dfsNbrs_val (adj : String → List String)
    (rec : DfsSt → String → List String → DfsSt)
    (hrecVal : ∀ st w p, List.Chain' (fun a b => b ∈ adj a) (p ++ [w]) →
      (∀ c ∈ st.cycles, ClosedWalk adj c) →
      ∀ c ∈ (rec st w p).cycles, ClosedWalk adj c) :
    ∀ ns st path n, path.getLast? = some n →
      List.Chain' (fun a b => b ∈ adj a) path →
      (∀ w ∈ ns, w ∈ adj n) →
      (∀ c ∈ st.cycles, ClosedWalk adj c) →
      ∀ c ∈ (dfsNbrs adj rec st ns path).cycles, ClosedWalk adj c := by
  intro ns
  induction ns with
  | nil => intro st path n _ _ _ hval c hc; exact hval c hc
  | cons v ns ih =>
    intro st path n hlast hchain hns hval
    show ∀ c ∈ (dfsNbrs adj rec _ ns path).cycles, ClosedWalk adj c
    by_cases h1 : v ∈ st.stack
    · by_cases h2 : v ∈ path
      · rw [if_pos h1, if_pos h2]
        apply ih _ path n hlast hchain
          (fun w hw => hns w (List.mem_cons_of_mem v hw))
        intro c hc
        rcases List.mem_append.mp hc with h | h
        · exact hval c h
        · rw [List.mem_singleton] at h
          subst h
          exact pushedCycle_closedWalk adj path v n h2 hlast hchain
            (hns v (List.mem_cons_self v ns))
      · rw [if_pos h1, if_neg h2]
        exact ih st path n hlast hchain
          (fun w hw => hns w (List.mem_cons_of_mem v hw)) hval
    · by_cases h3 : v ∈ st.visited
      · rw [if_neg h1, if_pos h3]
        exact ih st path n hlast hchain
          (fun w hw => hns w (List.mem_cons_of_mem v hw)) hval
      · rw [if_neg h1, if_neg h3]
        apply ih _ path n hlast hchain
          (fun w hw => hns w (List.mem_cons_of_mem v hw))
        apply hrecVal st v path _ hval
        rw [List.chain'_append]
        refine ⟨hchain, List.chain'_singleton v, ?_⟩
        intro x hx y hy
        rw [hlast] at hx
        simp only [Option.mem_def, Option.some_inj] at hx
        simp only [List.head?_cons, Option.mem_def, Option.some_inj] at hy
        rw [← hx, ← hy] at *
        exact hns v (List.mem_cons_self v ns)

theorem dfs_val (adj : String → List String) :
    ∀ fuel st n path,
      List.Chain' (fun a b => b ∈ adj a) (path ++ [n]) →
      (∀ c ∈ st.cycles, ClosedWalk adj c) →
      ∀ c ∈ (dfs adj fuel st n path).cycles, ClosedWalk adj c := by
  intro fuel
  induction fuel with
  | zero => intro st n path _ hval c hc; exact hval c hc
  | succ f ih =>
    intro st n path hchain hval
    show ∀ c ∈ (dfsNbrs adj (dfs adj f) (dfsEnter st n) (adj n)
      (path ++ [n])).cycles, ClosedWalk adj c
    exact dfsNbrs_val adj (dfs adj f)
      (fun st' w p hch hv => ih st' w p hch hv)
      (adj n) (dfsEnter st n) (path ++ [n]) n (List.getLast?_concat path)
      hchain (fun w hw => hw) hval

theorem rootFold_val (adj : String → List String) (FUEL : Nat) :
    ∀ nodes : List String, ∀ st : DfsSt,
      (∀ c ∈ st.cycles, ClosedWalk adj c) →
      ∀ c ∈ (nodes.foldl (fun st node => if node ∈ st.visited then st
        else dfs adj FUEL st node []) st).cycles, ClosedWalk adj c := by
  intro nodes
  induction nodes with
  | nil => intro st hval c hc; exact hval c hc
  | cons v ns ih =>
    intro st hval
    rw [List.foldl_cons]
    by_cases h : v ∈ st.visited
    · rw [if_pos h]; exact ih st hval
    · rw [if_neg h]
      apply ih
      apply dfs_val adj FUEL st v []
      · simp
      · exact hval

/-! ### C4: the Circular Dependencies detector -/

theorem getImports_mem (graph : Graph) (v m : String)
    (hm : m ∈ getImports graph v) :
    ∃ p ∈ graph.adjacencyList, p.1 = v ∧ m ∈ p.2 := by
  unfold getImports mapGetD mapGet at hm
  cases hfind : graph.adjacencyList.find? (fun p => p.1 = v) with
  | none => rw [hfind] at hm; cases hm
  | some p =>
    rw [hfind] at hm
    rw [show (some p).map Prod.snd = some p.2 from rfl] at hm
    rw [Option.getD_some] at hm
    have h1 := List.mem_of_find?_eq_some hfind
    have h2 := List.find?_some hfind
    simp only [decide_eq_true_eq] at h2
    exact ⟨p, h1, h2, hm⟩

theorem getImports_subset_universe (graph : Graph) :
    ∀ n, ∀ w ∈ getImports graph n, w ∈ dfsUniverse graph := by
  intro n w hw
  obtain ⟨p, hp, _, hmp⟩ := getImports_mem graph n w hw
  apply List.mem_append_right
  rw [List.mem_flatMap]
  exact ⟨p, hp, hmp⟩

/-- Whether one of the up-to-3 example cycles shown in the evidence is
a 2-cycle (printed as a 3-element sequence `x, y, x`). -/
def evidenceTwoCycle (graph : Graph) : Bool :=
  ((uniqueCycles graph).take 3).any
    (fun c => c.length == 3 && c.head? == c.getLast?)

/-- A concrete node entry. -/
def mkN (s : String) : String × Node :=
  (s, { id := s, filePath := s, language := "typescript", definitions := 0 })

/-- Three triangles discovered before a mutual `aa ↔ bb` pair. -/
def exGraphCycles : Graph :=
  { nodes := [mkN "t1a", mkN "t1b", mkN "t1c", mkN "t2a", mkN "t2b",
      mkN "t2c", mkN "t3a", mkN "t3b", mkN "t3c", mkN "aa", mkN "bb"]
    edges := []
    adjacencyList := [("t1a", ["t1b"]), ("t1b", ["t1c"]), ("t1c", ["t1a"]),
      ("t2a", ["t2b"]), ("t2b", ["t2c"]), ("t2c", ["t2a"]),
      ("t3a", ["t3b"]), ("t3b", ["t3c"]), ("t3c", ["t3a"]),
      ("aa", ["bb"]), ("bb", ["aa"])]
    reverseAdjacencyList := [] }

/-- C4 counterexample: `exGraphCycles` holds the mutual edges
`aa → bb`, `bb → aa`, the detector fires, but the evidence's example
cycles (capped at 3) are the three triangles found first — no 2-cycle
appears in the evidence. -/
theorem C4_circular_counterexample :
    ("bb" ∈ getImports exGraphCycles "aa" ∧
      "aa" ∈ getImports exGraphCycles "bb" ∧
      "aa" ∈ exGraphCycles.nodes.map Prod.fst ∧
      "bb" ∈ exGraphCycles.nodes.map Prod.fst) ∧
    (detectCircularDependencies [] "" exGraphCycles).isSome = true ∧
    evidenceTwoCycle exGraphCycles = false ∧
    uniqueCycles exGraphCycles =
      [["t1a", "t1b", "t1c", "t1a"], ["t2a", "t2b", "t2c", "t2a"],
       ["t3a", "t3b", "t3c", "t3a"], ["aa", "bb", "aa"]] ∧
    (detectCircularDependencies [] "" exGraphCycles).map (·.evidence) =
      some ["Detected 4 cycles (longest length: 4)",
        "Cycle: t1a → t1b → t1c → t1a", "Cycle: t2a → t2b → t2c → t2a",
        "Cycle: t3a → t3b → t3c → t3a"] := by
  refine ⟨by decide, by decide, by decide, by decide, by decide⟩

/-- C4 (amended): for distinct registered nodes with mutual adjacency
edges the detector returns a finding (though its evidence lists only up
to 3 example cycles, so the 2-cycle can be absent from the evidence);
an acyclic graph yields no finding; a returned finding's confidence is
`min(1, distinctCycleCount/5)` over the cycles deduplicated by printed
node sequence, its evidence being the longest-length summary plus up to
3 examples. -/
theorem C4_circular_amended (files : List String) (repoRoot : String)
    (graph : Graph) (A B : String) :
    (A ≠ B → A ∈ graph.nodes.map Prod.fst → B ∈ graph.nodes.map Prod.fst →
      B ∈ getImports graph A → A ∈ getImports graph B →
      (detectCircularDependencies files repoRoot graph).isSome = true) ∧
    (Acyclic graph → detectCircularDependencies files repoRoot graph = none) ∧
    (∀ p, detectCircularDependencies files repoRoot graph = some p →
      p.confidence = min 1 (((uniqueCycles graph).length : ℚ) / 5) ∧
      p.evidence = ("Detected " ++ toString (uniqueCycles graph).length ++
          " cycles (longest length: " ++
          toString ((uniqueCycles graph).foldl
            (fun mx c => max mx c.length) 0) ++ ")") ::
        ((uniqueCycles graph).take 3).map
          (fun c => "Cycle: " ++ strJoinSep " → " c) ∧
      p.evidence.length ≤ 4) := by
  refine ⟨?_, ?_, ?_⟩
  · intro hAB hA hB hadjAB hadjBA
    have hcyc : (dfsRun graph).cycles ≠ [] := by
      apply rootFold_MUT (getImports graph) (dfsUniverse graph) A B hAB
        hadjAB hadjBA (getImports_subset_universe graph)
        ((dfsUniverse graph).length + 1) (le_refl _)
        (graph.nodes.map Prod.fst)
        (fun v hv => List.mem_append_left _ hv)
        { visited := [], stack := [], cycles := [] } rfl
      · exact ⟨fun h => absurd h (List.not_mem_nil A),
          fun h => absurd h (List.not_mem_nil B)⟩
      · intro h
        exact absurd h.1 (List.not_mem_nil A)
      · exact rootFold_marks (getImports graph)
          ((dfsUniverse graph).length + 1) (by omega)
          (graph.nodes.map Prod.fst) _ A hA
      · exact rootFold_marks (getImports graph)
          ((dfsUniverse graph).length + 1) (by omega)
          (graph.nodes.map Prod.fst) _ B hB
    unfold detectCircularDependencies
    have hlen : ¬ (dfsRun graph).cycles.length = 0 := by
      intro h
      exact hcyc (List.length_eq_zero.mp h)
    rw [if_neg hlen]
    rfl
  · intro hacyc
    have hval := rootFold_val (getImports graph)
      ((dfsUniverse graph).length + 1) (graph.nodes.map Prod.fst)
      { visited := [], stack := [], cycles := [] }
      (fun c hc => absurd hc (List.not_mem_nil c))
    cases hcycles : (dfsRun graph).cycles with
    | nil =>
      unfold detectCircularDependencies
      rw [hcycles]
      rfl
    | cons c cs =>
      apply absurd _ hacyc
      refine ⟨c, hval c ?_⟩
      show c ∈ (dfsRun graph).cycles
      rw [hcycles]
      exact List.mem_cons_self c cs
  · intro p hp
    unfold detectCircularDependencies at hp
    by_cases hlen : (dfsRun graph).cycles.length = 0
    · rw [if_pos hlen] at hp
      cases hp
    · rw [if_neg hlen] at hp
      have hp2 := Option.some_inj.mp hp
      rw [← hp2]
      exact ⟨rfl, rfl, by
        show (List.length (_ :: ((uniqueCycles graph).take 3).map _)) ≤ 4
        simp only [List.length_cons, List.length_map]
        have := List.length_take_le 3 (uniqueCycles graph)
        omega⟩

/-- A two-node graph with mutual edges, for the C4 witness. -/
def exGraphMutual : Graph :=
  { nodes := [mkN "a", mkN "b"]
    edges := []
    adjacencyList := [("a", ["b"]), ("b", ["a"])]
    reverseAdjacencyList := [] }

/-- Witness for C4 (amended) at a concrete mutual-edge graph. -/
theorem C4_circular_amended_witness :
    (("a" : String) ≠ "b" ∧
      "a" ∈ exGraphMutual.nodes.map Prod.fst ∧
      "b" ∈ exGraphMutual.nodes.map Prod.fst ∧
      "b" ∈ getImports exGraphMutual "a" ∧
      "a" ∈ getImports exGraphMutual "b") ∧
    (detectCircularDependencies [] "" exGraphMutual).isSome = true :=
  ⟨by decide,
   (C4_circular_amended [] "" exGraphMutual "a" "b").1 (by decide)
     (by decide) (by decide) (by decide) (by decide)⟩

/-! ### C9: `detectPatterns` -/

/-- C9: `detectPatterns` fails exactly when invoked without a usable
`repoRoot` (absent, or the falsy empty string); with a root it returns
normally, its result being precisely the fired detectors' findings
sorted by descending confidence. -/
theorem C9_detectPatterns_root_and_sort (input : DetectPatternsInput) :
    ((∃ e, detectPatterns input = .error e) ↔
      (input.repoRoot = none ∨ input.repoRoot = some "")) ∧
    (∀ root, input.repoRoot = some root → root ≠ "" →
      ∃ ps, detectPatterns input = .ok ps ∧
        ps.Perm (PATTERN_DETECTORS.filterMap
          (fun d => d input.files root input.graph)) ∧
        List.Pairwise (fun a b => b.confidence ≤ a.confidence) ps) := by
  constructor
  · constructor
    · intro ⟨e, he⟩
      unfold detectPatterns at he
      cases hroot : input.repoRoot with
      | none => exact Or.inl rfl
      | some root =>
        rw [hroot] at he
        have he2 : (if root = "" then
            (Except.error "repoRoot is required for pattern detection" :
              Except String (List Pattern))
          else Except.ok ((PATTERN_DETECTORS.filterMap
            (fun d => d input.files root input.graph)).mergeSort
            (fun a b => decide (b.confidence ≤ a.confidence)))) =
            Except.error e := he
        by_cases hempty : root = ""
        · exact Or.inr (by rw [hempty])
        · rw [if_neg hempty] at he2
          cases he2
    · intro h
      rcases h with h | h
      · exact ⟨"repoRoot is required for pattern detection",
          by unfold detectPatterns; rw [h]⟩
      · exact ⟨"repoRoot is required for pattern detection",
          by unfold detectPatterns; rw [h]; rfl⟩
  · intro root hroot hne
    refine ⟨(PATTERN_DETECTORS.filterMap
        (fun d => d input.files root input.graph)).mergeSort
        (fun a b => decide (b.confidence ≤ a.confidence)), ?_, ?_, ?_⟩
    · unfold detectPatterns
      rw [hroot]
      show (if root = "" then
          (Except.error "repoRoot is required for pattern detection" :
            Except String (List Pattern))
        else Except.ok ((PATTERN_DETECTORS.filterMap
          (fun d => d input.files root input.graph)).mergeSort
          (fun a b => decide (b.confidence ≤ a.confidence)))) =
        Except.ok ((PATTERN_DETECTORS.filterMap
          (fun d => d input.files root input.graph)).mergeSort
          (fun a b => decide (b.confidence ≤ a.confidence)))
      rw [if_neg hne]
    · exact List.mergeSort_perm _ _
    · have hpw := @List.sorted_mergeSort Pattern
        (fun a b : Pattern => decide (b.confidence ≤ a.confidence))
        (fun a b c hab hbc => by
          simp only [decide_eq_true_eq] at hab hbc ⊢
          exact le_trans hbc hab)
        (fun a b => by
          rcases le_total a.confidence b.confidence with h | h <;>
            simp [h])
        (PATTERN_DETECTORS.filterMap (fun d => d input.files root input.graph))
      exact hpw.imp (fun h => by simpa using h)

/-- Witness for C9 at a concrete input. -/
theorem C9_detectPatterns_root_and_sort_witness :
    (({ graph := createGraph, files := [], repoRoot := some "/r" } :
        DetectPatternsInput).repoRoot = some "/r" ∧ ("/r" : String) ≠ "") ∧
    (∃ ps, detectPatterns
        { graph := createGraph, files := [], repoRoot := some "/r" } =
          .ok ps ∧
      ps.Perm (PATTERN_DETECTORS.filterMap (fun d => d [] "/r" createGraph)) ∧
      List.Pairwise (fun a b => b.confidence ≤ a.confidence) ps) :=
  ⟨⟨rfl, by decide⟩,
   (C9_detectPatterns_root_and_sort
     { graph := createGraph, files := [], repoRoot := some "/r" }).2
     "/r" rfl (by decide)⟩
